import Mathlib

/-!
Verification of the `floyd-warshall` crate: a packed symmetric `PathMatrix`
(`src/matrices.rs`) and the path-reconstructing Floyd-Warshall engine
(`src/lib.rs`).  All definitions are shallow embeddings of the Rust source:
`usize` is modelled as `Nat` with saturating addition capped at
`2 ^ 64 - 1`, slices and `Vec` as `List`, panicking accessors as
`Option`-returning functions (with `none` for an assertion failure or an
out-of-bounds index), and the petgraph graph view as an explicit record of
node count, edge list and directedness flag.
-/

namespace FloydWarshall

/-- `usize::MAX` on a 64-bit target. -/
def usizeMax : Nat := 2 ^ 64 - 1

/-- `usize::saturating_add` (lib.rs line 109). -/
def satAdd (a b : Nat) : Nat := min (a + b) usizeMax

/-- One edge of the petgraph view: source index, target index, weight
(`G::EdgeWeight: Into<usize>`). -/
structure Edge where
  src : Nat
  tgt : Nat
  w : Nat
  deriving Repr, DecidableEq

/-- The read-only graph view consumed by `floyd_warshall`: node count,
edge references in iteration order, and the directedness flag.  Node
identifiers are the dense indices `0, …, n-1`; node weights (labels) are
instantiated with the node index itself. -/
structure Graph where
  n : Nat
  edges : List Edge
  directed : Bool
  deriving Repr, DecidableEq

/-- `Path<T>` (matrices.rs lines 4-10): intermediate-node sequence, cached
length, existence flag. -/
structure Path (T : Type) where
  v : List T
  len : Nat
  pexists : Bool
  deriving Repr, DecidableEq

/-- `Path::default` (matrices.rs lines 51-60): empty sequence, maximal
sentinel length, `exists = false`. -/
def Path.default (T : Type) : Path T := ⟨[], usizeMax, false⟩

/-- `Path::set_vector` (matrices.rs lines 13-15). -/
def Path.set_vector {T : Type} (p : Path T) (t : List T) : Path T :=
  { p with v := t }

/-- `Path::set_len` (matrices.rs lines 34-37): sets the length and the
existence flag. -/
def Path.set_len {T : Type} (p : Path T) (n : Nat) : Path T :=
  { p with len := n, pexists := true }

/-- `Path::len` (matrices.rs lines 28-31): asserts `exists` before
returning the cached length; the failed assertion is modelled as `none`. -/
def Path.lenChecked {T : Type} (p : Path T) : Option Nat :=
  if p.pexists then some p.len else none

/-- `PathMatrix<T>` (matrices.rs lines 64-68): boxed slot slice and
dimension. -/
structure PathMatrix (T : Type) where
  m : List (Path T)
  n : Nat
  deriving Repr, DecidableEq

/-- `PathMatrix::new` (matrices.rs lines 73-84): pushes
`1 + n * (n - 1) / 2` default slots (`n - 1` is `Nat` subtraction, as in
the Rust source for `n ≥ 1`). -/
def PathMatrix.new (T : Type) (n : Nat) : PathMatrix T :=
  ⟨List.replicate (1 + n * (n - 1) / 2) (Path.default T), n⟩

/-- The recursion of `PathMatrix::idx` (matrices.rs lines 95-106), after
the canonicalizing swap has established `i ≤ j`: `if i == j { 0 } else
if j < 3 { j + i } else { idx(0, j - 1) + (j - 1) + i }`.  The match on
the second argument exposes `j - 1` so that the recursion is structural
(for `j = 0` only the two non-recursive branches are reachable). -/
def idxAux : Nat → Nat → Nat
  | i, 0 => if i = 0 then 0 else 0 + i
  | i, (j + 1) =>
    if i = j + 1 then 0
    else if j + 1 < 3 then (j + 1) + i
    else idxAux 0 j + j + i

/-- `PathMatrix::idx` (matrices.rs lines 87-107): swaps the indices so
that `i ≤ j`, then computes the packed triangular offset. -/
def PathMatrix.idx {T : Type} (_mx : PathMatrix T) (i j : Nat) : Nat :=
  if i > j then idxAux j i else idxAux i j

/-- Slot lookup `self.m[idx]`; `none` models the out-of-bounds panic. -/
def PathMatrix.getSlot? {T : Type} (mx : PathMatrix T) (i j : Nat) :
    Option (Path T) :=
  mx.m[mx.idx i j]?

/-- Total slot lookup used inside the engine, where all indices are in
range (the default is never reached on the engine's call sites). -/
def PathMatrix.slotD {T : Type} (mx : PathMatrix T) (i j : Nat) : Path T :=
  (mx.m[mx.idx i j]?).getD (Path.default T)

/-- `PathMatrix::get_path_len` (matrices.rs lines 110-113): indexes the
slot and runs `Path::len`, whose assertion failure is `none`. -/
def PathMatrix.get_path_len {T : Type} (mx : PathMatrix T) (i j : Nat) :
    Option Nat :=
  (mx.getSlot? i j).bind Path.lenChecked

/-- `PathMatrix::get_path` (matrices.rs lines 116-119). -/
def PathMatrix.get_path {T : Type} (mx : PathMatrix T) (i j : Nat) :
    Option (Path T) :=
  mx.getSlot? i j

/-- `PathMatrix::get_path_iter` (matrices.rs lines 122-129): the stored
intermediate sequence in canonical order (total; the engine only calls it
in bounds). -/
def PathMatrix.get_path_iter {T : Type} (mx : PathMatrix T) (i j : Nat) :
    List T :=
  (mx.slotD i j).v

/-- `PathMatrix::does_path_exist` (matrices.rs lines 132-135). -/
def PathMatrix.does_path_exist {T : Type} (mx : PathMatrix T) (i j : Nat) :
    Option Bool :=
  (mx.getSlot? i j).map Path.pexists

/-- In-place update of one slot; out-of-bounds writes are no-ops in the
model (the Rust code would panic, and every verified call site is proved
in bounds). -/
def PathMatrix.modifySlot {T : Type} (mx : PathMatrix T) (i j : Nat)
    (f : Path T → Path T) : PathMatrix T :=
  { mx with m := mx.m.modify f (mx.idx i j) }

/-- `PathMatrix::set_path_len` (matrices.rs lines 144-147). -/
def PathMatrix.set_path_len {T : Type} (mx : PathMatrix T) (i j v : Nat) :
    PathMatrix T :=
  mx.modifySlot i j (fun p => p.set_len v)

/-- `m.get_path_mut(i, j).set_vector(v)` (lib.rs line 139). -/
def PathMatrix.set_path_vector {T : Type} (mx : PathMatrix T) (i j : Nat)
    (t : List T) : PathMatrix T :=
  mx.modifySlot i j (fun p => p.set_vector t)

/-- The adoption branch of the relaxation (lib.rs lines 113-140): write
the improved length, then rebuild the stored path from the two sub-path
iterators (read back from the matrix after the length write, exactly as
the source does), reversing each sub-path when its requested direction
disagrees with the canonical storage order. -/
def fwUpdate (k n1 n2 v2v : Nat) (m : PathMatrix Nat) : PathMatrix Nat :=
  let m' := m.set_path_len n1 n2 v2v
  let part1 :=
    if n1 ≤ k then m'.get_path_iter n1 k
    else (m'.get_path_iter n1 k).reverse
  let part2 :=
    if k ≤ n2 then m'.get_path_iter k n2
    else (m'.get_path_iter k n2).reverse
  m'.set_path_vector n1 n2 (part1 ++ k :: part2)

/-- The body of the triple loop of `floyd_warshall` (lib.rs lines 73-141)
for one `(k, n1, n2)` triple, with node weights instantiated by the node
index (`kw = k`).  The three `continue`s become guards. -/
def fwStep (k n1 n2 : Nat) (m : PathMatrix Nat) : PathMatrix Nat :=
  if n1 = n2 then m
  else if n1 > n2 then m
  else if n1 = k ∨ n2 = k then m
  else
    let v1 : Option Nat :=
      if (m.slotD n1 n2).pexists then some (m.slotD n1 n2).len else none
    let v2 : Option Nat :=
      if (m.slotD n1 k).pexists && (m.slotD k n2).pexists
      then some (satAdd (m.slotD n1 k).len (m.slotD k n2).len)
      else none
    match v2, v1 with
    | none, _ => m
    | some v2v, some v1v => if v2v < v1v then fwUpdate k n1 n2 v2v m else m
    | some v2v, none => fwUpdate k n1 n2 v2v m

/-- One pass of the outer loop of `floyd_warshall` for a fixed
intermediate node `k`: the two inner loops over `n1` and `n2` range over
all node identifiers `0, …, n-1`. -/
def fwPass (n k : Nat) (m : PathMatrix Nat) : PathMatrix Nat :=
  (List.range n).foldl
    (fun m n1 => (List.range n).foldl (fun m n2 => fwStep k n1 n2 m) m) m

/-- The matrix state after the initialization phase of `floyd_warshall`
(lib.rs lines 49-62): fresh matrix, diagonal slot zeroed, then one
`set_path_len` per edge reference in order. -/
def seedMatrix (g : Graph) : PathMatrix Nat :=
  g.edges.foldl (fun m e => m.set_path_len e.src e.tgt e.w)
    ((PathMatrix.new Nat g.n).set_path_len 0 0 0)

/-- `floyd_warshall` (lib.rs lines 34-146), with node weights
instantiated by the node index.  The failed `assert!(!g.is_directed())`
is modelled as `none`. -/
def floyd_warshall (g : Graph) : Option (PathMatrix Nat) :=
  if g.directed then none
  else some ((List.range g.n).foldl (fun m k => fwPass g.n k m) (seedMatrix g))

/-! ### The specification side: undirected walks and shortest lengths -/

/-- The undirected graph view's edge relation: some edge reference joins
`a` and `b` (in either orientation) with weight `w`. -/
def HasEdge (g : Graph) (a b w : Nat) : Prop :=
  ∃ e ∈ g.edges, ((e.src = a ∧ e.tgt = b) ∨ (e.src = b ∧ e.tgt = a)) ∧ e.w = w

/-- A walk from `a` to `b` through the intermediate nodes `L` (in order,
excluding the endpoints) of total edge weight `w`: every consecutive pair
of nodes is joined by an edge and `w` is the sum of those edges'
weights.  Walks have at least one edge. -/
inductive Walk (g : Graph) : Nat → Nat → List Nat → Nat → Prop where
  | single {a b w : Nat} : HasEdge g a b w → Walk g a b [] w
  | cons {a b c w₁ w₂ : Nat} {L : List Nat} :
      HasEdge g a c w₁ → Walk g c b L w₂ → Walk g a b (c :: L) (w₁ + w₂)

/-- `j` is reachable from `i`: some walk joins them. -/
def Reachable (g : Graph) (i j : Nat) : Prop := ∃ L w, Walk g i j L w

/-- `d` is the length of a shortest path between `i` and `j`: attained by
some walk, and a lower bound on every walk's weight. -/
def shortestLen (g : Graph) (i j d : Nat) : Prop :=
  (∃ L, Walk g i j L d) ∧ ∀ L w, Walk g i j L w → d ≤ w

/-- Well-formedness of the graph view: every edge endpoint is a valid
dense node index (petgraph guarantees this for its graphs). -/
def Graph.Wf (g : Graph) : Prop :=
  ∀ e ∈ g.edges, e.src < g.n ∧ e.tgt < g.n

/-- Two edge references join the same unordered node pair. -/
def sameUPair (e₁ e₂ : Edge) : Prop :=
  (e₁.src = e₂.src ∧ e₁.tgt = e₂.tgt) ∨ (e₁.src = e₂.tgt ∧ e₁.tgt = e₂.src)

/-- The graph is a simple graph (no duplicate edges between one unordered
node pair); the spec excludes multigraphs from scope. -/
def Graph.NodupPairs (g : Graph) : Prop :=
  g.edges.Pairwise (fun e₁ e₂ => ¬ sameUPair e₁ e₂)

/-! ### Arithmetic of the packed triangular index -/

/-- Triangular numbers, `tri n = 0 + 1 + ⋯ + n`. -/
def tri : Nat → Nat
  | 0 => 0
  | n + 1 => tri n + n + 1

theorem two_mul_tri (n : Nat) : 2 * tri n = n * (n + 1) := by
  induction n with
  | zero => rfl
  | succ n ih => simp only [tri]; ring_nf; ring_nf at ih; omega

theorem tri_eq (n : Nat) : tri n = n * (n + 1) / 2 := by
  have h := two_mul_tri n
  omega

theorem tri_pred_eq (n : Nat) : tri (n - 1) = n * (n - 1) / 2 := by
  cases n with
  | zero => rfl
  | succ n =>
    have h := two_mul_tri n
    have h2 : n * (n + 1) = (n + 1) * n := Nat.mul_comm n (n + 1)
    simp only [Nat.succ_sub_one]
    omega

theorem tri_succ_pred {j : Nat} (h : 1 ≤ j) : tri j = tri (j - 1) + j := by
  cases j with
  | zero => omega
  | succ j => simp only [tri, Nat.succ_sub_one]; omega

theorem tri_mono {a b : Nat} (h : a ≤ b) : tri a ≤ tri b := by
  induction b with
  | zero =>
    have ha : a = 0 := by omega
    subst ha
    exact Nat.le_refl _
  | succ b ih =>
    rcases Nat.lt_or_ge a (b + 1) with h' | h'
    · have hb := ih (by omega)
      simp only [tri]
      omega
    · have ha : a = b + 1 := by omega
      subst ha
      exact Nat.le_refl _

theorem idxAux_self (i : Nat) : idxAux i i = 0 := by
  cases i with
  | zero => rfl
  | succ i => simp [idxAux]

/-- Closed form of the packed index on the strict upper triangle. -/
theorem idxAux_eq : ∀ {j i : Nat}, i < j → idxAux i j = tri (j - 1) + i + 1 := by
  intro j
  induction j with
  | zero => intro i h; omega
  | succ j ih =>
    intro i h
    simp only [idxAux, if_neg (by omega : ¬ i = j + 1), Nat.succ_sub_one]
    rcases Nat.lt_or_ge (j + 1) 3 with h3 | h3
    · rw [if_pos h3]
      have hj : j = 0 ∨ j = 1 := by omega
      rcases hj with hj | hj <;> subst hj <;> simp [tri] <;> omega
    · rw [if_neg (by omega)]
      have h0 : idxAux 0 j = tri (j - 1) + 0 + 1 := ih (by omega)
      have hj : tri j = tri (j - 1) + j := tri_succ_pred (by omega)
      omega

theorem idxAux_pos {i j : Nat} (h : i < j) : 1 ≤ idxAux i j := by
  rw [idxAux_eq h]; omega

theorem idxAux_le_tri {i j : Nat} (h : i < j) : idxAux i j ≤ tri j := by
  rw [idxAux_eq h]
  have hj : tri j = tri (j - 1) + j := tri_succ_pred (by omega)
  omega

/-- The packed index is injective on the strict upper triangle. -/
theorem idxAux_inj {i j i' j' : Nat} (hij : i < j) (hij' : i' < j')
    (h : idxAux i j = idxAux i' j') : i = i' ∧ j = j' := by
  rw [idxAux_eq hij, idxAux_eq hij'] at h
  rcases Nat.lt_trichotomy j j' with hlt | heq | hgt
  · exfalso
    have h1 : tri j ≤ tri (j' - 1) := tri_mono (by omega)
    have h2 : tri j = tri (j - 1) + j := tri_succ_pred (by omega)
    omega
  · subst heq
    omega
  · exfalso
    have h1 : tri j' ≤ tri (j - 1) := tri_mono (by omega)
    have h2 : tri j' = tri (j' - 1) + j' := tri_succ_pred (by omega)
    omega

/-- The packed index maps the strict upper triangle of an `n`-node matrix
onto `{1, …, tri (n-1)}`. -/
theorem idxAux_surj (n : Nat) :
    ∀ t, 1 ≤ t → t ≤ tri (n - 1) →
      ∃ i j, i < j ∧ j < n ∧ idxAux i j = t := by
  induction n with
  | zero => intro t h1 h2; simp [tri] at h2; omega
  | succ n ih =>
    intro t h1 h2
    simp only [Nat.succ_sub_one] at h2
    rcases Nat.lt_or_ge (tri (n - 1)) t with hbig | hsmall
    · have hn : 1 ≤ n := by
        by_contra h
        have : n = 0 := by omega
        subst this
        simp [tri] at h2; omega
      have hj : tri n = tri (n - 1) + n := tri_succ_pred hn
      refine ⟨t - tri (n - 1) - 1, n, by omega, by omega, ?_⟩
      rw [idxAux_eq (by omega)]
      omega
    · obtain ⟨i, j, hij, hjn, he⟩ := ih t h1 hsmall
      exact ⟨i, j, hij, by omega, he⟩

theorem idx_eq_idxAux {T : Type} (mx : PathMatrix T) (i j : Nat) :
    mx.idx i j = idxAux (min i j) (max i j) := by
  unfold PathMatrix.idx
  rcases Nat.lt_trichotomy i j with h | h | h
  · rw [if_neg (by omega), Nat.min_def, Nat.max_def, if_pos (by omega),
      if_pos (by omega)]
  · subst h
    simp [idxAux_self]
  · rw [if_pos h, Nat.min_def, Nat.max_def, if_neg (by omega), if_neg (by omega)]

theorem idx_symm {T : Type} (mx : PathMatrix T) (i j : Nat) :
    mx.idx i j = mx.idx j i := by
  rw [idx_eq_idxAux, idx_eq_idxAux, Nat.min_comm, Nat.max_comm]

theorem idx_diag {T : Type} (mx : PathMatrix T) (i : Nat) : mx.idx i i = 0 := by
  rw [idx_eq_idxAux]
  simp [idxAux_self]

theorem idx_lt_of_lt {T : Type} (mx : PathMatrix T) {i j : Nat} (h : i < j) :
    mx.idx i j = idxAux i j := by
  rw [idx_eq_idxAux, Nat.min_def, Nat.max_def, if_pos (by omega), if_pos (by omega)]

/-- Every packed index of a pair below `n` is below `1 + n·(n-1)/2`. -/
theorem idx_lt_size {T : Type} (mx : PathMatrix T) {i j n : Nat}
    (hi : i < n) (hj : j < n) : mx.idx i j < 1 + n * (n - 1) / 2 := by
  rw [idx_eq_idxAux, ← tri_pred_eq]
  rcases Nat.lt_trichotomy i j with h | h | h
  · have h1 : idxAux (min i j) (max i j) ≤ tri (max i j) := by
      rw [Nat.min_def, Nat.max_def, if_pos (by omega), if_pos (by omega)]
      exact idxAux_le_tri h
    have h2 : tri (max i j) ≤ tri (n - 1) := tri_mono (by omega)
    omega
  · subst h
    simp [idxAux_self]
  · have h1 : idxAux (min i j) (max i j) ≤ tri (max i j) := by
      rw [Nat.min_def, Nat.max_def, if_neg (by omega), if_neg (by omega)]
      exact idxAux_le_tri h
    have h2 : tri (max i j) ≤ tri (n - 1) := tri_mono (by omega)
    omega

theorem new_length (T : Type) (n : Nat) :
    (PathMatrix.new T n).m.length = 1 + n * (n - 1) / 2 := by
  simp [PathMatrix.new]

/-! ### Walk theory -/

theorem hasEdge_symm {g : Graph} {a b w : Nat} (h : HasEdge g a b w) :
    HasEdge g b a w := by
  obtain ⟨e, he, hj, hw⟩ := h
  exact ⟨e, he, by tauto, hw⟩

theorem walk_snoc {g : Graph} {a b c w₁ w₂ : Nat} {L : List Nat}
    (h : Walk g a b L w₁) (he : HasEdge g b c w₂) :
    Walk g a c (L ++ [b]) (w₁ + w₂) := by
  induction h with
  | single h' => exact Walk.cons h' (Walk.single he)
  | cons h' _ ih =>
    rw [Nat.add_assoc]
    exact Walk.cons h' (ih he)

/-- Reversing a walk in an undirected graph. -/
theorem walk_reverse {g : Graph} {a b w : Nat} {L : List Nat}
    (h : Walk g a b L w) : Walk g b a L.reverse w := by
  induction h with
  | single h' => exact Walk.single (hasEdge_symm h')
  | cons h' _ ih =>
    rw [List.reverse_cons, Nat.add_comm]
    exact walk_snoc ih (hasEdge_symm h')

/-- Splicing two walks at a common endpoint. -/
theorem walk_append {g : Graph} {a b c w₁ w₂ : Nat} {L₁ L₂ : List Nat}
    (h₁ : Walk g a c L₁ w₁) (h₂ : Walk g c b L₂ w₂) :
    Walk g a b (L₁ ++ c :: L₂) (w₁ + w₂) := by
  induction h₁ with
  | single h' => exact Walk.cons h' h₂
  | cons h' _ ih =>
    rw [Nat.add_assoc]
    exact Walk.cons h' (ih h₂)

/-- Splitting a walk at the first occurrence of an intermediate node. -/
theorem walk_split {g : Graph} {a b w : Nat} {L : List Nat}
    (h : Walk g a b L w) :
    ∀ c ∈ L, ∃ L₁ L₂ w₁ w₂, L = L₁ ++ c :: L₂ ∧ c ∉ L₁ ∧
      Walk g a c L₁ w₁ ∧ Walk g c b L₂ w₂ ∧ w₁ + w₂ = w := by
  induction h with
  | single _ => intro c hc; simp at hc
  | cons h' hw ih =>
    intro c hc
    rename_i a' b' d w₁ w₂ L'
    by_cases hcd : c = d
    · subst hcd
      exact ⟨[], L', w₁, w₂, rfl, by simp, Walk.single h', hw, rfl⟩
    · have hc' : c ∈ L' := by
        rcases List.mem_cons.mp hc with h | h
        · exact absurd h hcd
        · exact h
      obtain ⟨L₁, L₂, u₁, u₂, hEq, hnm, hw₁, hw₂, hsum⟩ := ih c hc'
      refine ⟨d :: L₁, L₂, w₁ + u₁, u₂, by rw [hEq]; rfl, ?_, Walk.cons h' hw₁,
        hw₂, by omega⟩
      intro hmem
      rcases List.mem_cons.mp hmem with h | h
      · exact hcd h
      · exact hnm h

/-- Every walk can be reduced to one of no larger weight whose
intermediate nodes are pairwise distinct, avoid both endpoints, and come
from the original intermediate list. -/
theorem walk_decycle {g : Graph} :
    ∀ (fuel : Nat) {a b w : Nat} {L : List Nat}, L.length ≤ fuel →
      Walk g a b L w →
      ∃ L' w', Walk g a b L' w' ∧ w' ≤ w ∧ L'.Nodup ∧
        (∀ x ∈ L', x ∈ L) ∧ a ∉ L' ∧ b ∉ L' := by
  intro fuel
  induction fuel with
  | zero =>
    intro a b w L hlen hw
    have hL : L = [] := List.length_eq_zero.mp (by omega)
    subst hL
    refine ⟨[], w, hw, le_refl _, List.nodup_nil, by simp, by simp, by simp⟩
  | succ fuel ih =>
    intro a b w L hlen hw
    by_cases ha : a ∈ L
    · obtain ⟨L₁, L₂, w₁, w₂, hEq, _, _, hw₂, hsum⟩ := walk_split hw a ha
      have hlen₂ : L₂.length ≤ fuel := by
        have := congrArg List.length hEq
        simp at this
        omega
      obtain ⟨L', w', hw', hle, hnd, hsub, ha', hb'⟩ := ih hlen₂ hw₂
      refine ⟨L', w', hw', by omega, hnd, ?_, ha', hb'⟩
      intro x hx
      have := hsub x hx
      rw [hEq]
      simp
      tauto
    · by_cases hb : b ∈ L
      · obtain ⟨L₁, L₂, w₁, w₂, hEq, hnm, hw₁, _, hsum⟩ := walk_split hw b hb
        have hlen₁ : L₁.length ≤ fuel := by
          have := congrArg List.length hEq
          simp at this
          omega
        obtain ⟨L', w', hw', hle, hnd, hsub, ha', hb'⟩ := ih hlen₁ hw₁
        refine ⟨L', w', hw', by omega, hnd, ?_, ha', hb'⟩
        intro x hx
        have := hsub x hx
        rw [hEq]
        simp
        tauto
      · by_cases hnd : L.Nodup
        · exact ⟨L, w, hw, le_refl _, hnd, fun x hx => hx, ha, hb⟩
        · have hcnt : ∃ c, 2 ≤ L.count c := by
            by_contra hcon
            push_neg at hcon
            exact hnd (List.nodup_iff_count_le_one.mpr (fun c => by
              have := hcon c
              omega))
          obtain ⟨c, hc2⟩ := hcnt
          have hcL : c ∈ L := by
            rw [← List.count_pos_iff]
            omega
          obtain ⟨L₁, L₂, w₁, w₂, hEq, hnm, hw₁, hw₂, hsum⟩ := walk_split hw c hcL
          have hcL₂ : c ∈ L₂ := by
            have : L.count c = L₁.count c + 1 + L₂.count c := by
              rw [hEq]
              simp [List.count_append]
              omega
            have hL₁ : L₁.count c = 0 := List.count_eq_zero.mpr hnm
            rw [← List.count_pos_iff]
            omega
          obtain ⟨P, Q, u₁, u₂, hEq₂, _, _, hwQ, hsum₂⟩ := walk_split hw₂ c hcL₂
          have hspl : Walk g a b (L₁ ++ c :: Q) (w₁ + u₂) := walk_append hw₁ hwQ
          have hlen' : (L₁ ++ c :: Q).length ≤ fuel := by
            have h1 := congrArg List.length hEq
            have h2 := congrArg List.length hEq₂
            simp at h1 h2 ⊢
            omega
          obtain ⟨L', w', hw', hle, hnd', hsub, ha', hb'⟩ := ih hlen' hspl
          refine ⟨L', w', hw', by omega, hnd', ?_, ha', hb'⟩
          intro x hx
          have hx' := hsub x hx
          rw [hEq]
          rw [List.mem_append] at hx' ⊢
          rcases hx' with h | h
          · tauto
          · right
            rw [hEq₂]
            rcases List.mem_cons.mp h with h | h
            · simp [h]
            · simp
              tauto

/-- Weight bound: a walk with `|L|` intermediates uses `|L| + 1` edges,
each of weight at most `W`. -/
theorem walk_weight_le {g : Graph} {W a b w : Nat} {L : List Nat}
    (hw : Walk g a b L w) (hW : ∀ e ∈ g.edges, e.w ≤ W) :
    w ≤ (L.length + 1) * W := by
  induction hw with
  | single h' =>
    obtain ⟨e, he, _, hew⟩ := h'
    simpa using hew ▸ hW e he
  | cons h' _ ih =>
    obtain ⟨e, he, _, hew⟩ := h'
    have h1 : _ ≤ W := hew ▸ hW e he
    simp only [List.length_cons]
    calc _ ≤ W + (_ + 1) * W := Nat.add_le_add h1 ih
    _ = (_ + 1 + 1) * W := by ring

/-- Endpoints and intermediates of a walk are valid node indices. -/
theorem walk_lt {g : Graph} {a b w : Nat} {L : List Nat} (hwf : g.Wf)
    (hw : Walk g a b L w) : a < g.n ∧ b < g.n ∧ ∀ x ∈ L, x < g.n := by
  induction hw with
  | single h' =>
    obtain ⟨e, he, hj, _⟩ := h'
    have := hwf e he
    constructor
    · rcases hj with ⟨h1, _⟩ | ⟨h1, _⟩ <;> omega
    constructor
    · rcases hj with ⟨_, h2⟩ | ⟨_, h2⟩ <;> omega
    · simp
  | cons h' _ ih =>
    obtain ⟨e, he, hj, _⟩ := h'
    have := hwf e he
    refine ⟨?_, ih.2.1, ?_⟩
    · rcases hj with ⟨h1, _⟩ | ⟨h1, _⟩ <;> omega
    · intro x hx
      rcases List.mem_cons.mp hx with h | h
      · subst h
        rcases hj with ⟨_, h2⟩ | ⟨_, h2⟩ <;> omega
      · exact ih.2.2 x h

/-- A nodup list of node indices has at most `n` elements. -/
theorem nodup_length_le {L : List Nat} {n : Nat} (hnd : L.Nodup)
    (hlt : ∀ x ∈ L, x < n) : L.length ≤ n := by
  have hsub : L ⊆ List.range n := fun x hx => List.mem_range.mpr (hlt x hx)
  have := (hnd.subperm hsub).length_le
  simpa using this

/-! ### Fold and slot-update infrastructure -/

/-- Invariant propagation along `List.foldl`, tracking the processed
prefix of a fixed full list. -/
theorem foldl_split_invariant {α σ : Type _} (full : List α) (f : σ → α → σ)
    (P : List α → σ → Prop)
    (hstep : ∀ pre a rest s, full = pre ++ a :: rest → P pre s →
      P (pre ++ [a]) (f s a)) :
    ∀ (l pre : List α) (s : σ), full = pre ++ l → P pre s →
      P full (l.foldl f s) := by
  intro l
  induction l with
  | nil =>
    intro pre s h hP
    rw [h, List.append_nil]
    exact hP
  | cons a l ih =>
    intro pre s h hP
    have h' : full = (pre ++ [a]) ++ l := by simp [h]
    exact ih (pre ++ [a]) (f s a) h' (hstep pre a l s h hP)

theorem foldl_flatMap {α β σ : Type _} (l : List α) (f : α → List β)
    (g : σ → β → σ) (s : σ) :
    (l.flatMap f).foldl g s = l.foldl (fun s a => (f a).foldl g s) s := by
  induction l generalizing s with
  | nil => rfl
  | cons a l ih => simp [List.foldl_append, ih]

/-- The row-major traversal order of the two inner loops: all ordered
pairs `(n1, n2)` with both components in `[0, n)`. -/
def pairList (n : Nat) : List (Nat × Nat) :=
  (List.range n).flatMap (fun a => (List.range n).map (fun b => (a, b)))

theorem mem_pairList {n : Nat} {p : Nat × Nat} :
    p ∈ pairList n ↔ p.1 < n ∧ p.2 < n := by
  cases p with
  | mk a b =>
    simp [pairList, List.mem_flatMap, List.mem_map, List.mem_range]

theorem nodup_pairList (n : Nat) : (pairList n).Nodup := by
  unfold pairList
  rw [List.nodup_flatMap]
  constructor
  · intro a _
    exact (List.nodup_range n).map (fun b₁ b₂ h => by
      simpa using congrArg Prod.snd h)
  · have hdisj : ∀ a₁ a₂ : Nat, a₁ ≠ a₂ →
        ((List.range n).map (fun b => (a₁, b))).Disjoint
          ((List.range n).map (fun b => (a₂, b))) := by
      intro a₁ a₂ hne p hp₁ hp₂
      simp [List.mem_map] at hp₁ hp₂
      obtain ⟨b₁, _, hb₁⟩ := hp₁
      obtain ⟨b₂, _, hb₂⟩ := hp₂
      exact hne (by simpa using congrArg Prod.fst (hb₁.trans hb₂.symm))
    exact (List.nodup_range n).imp (fun hne => hdisj _ _ hne)

theorem fwPass_eq_foldl (n k : Nat) (m : PathMatrix Nat) :
    fwPass n k m = (pairList n).foldl (fun m p => fwStep k p.1 p.2 m) m := by
  unfold fwPass pairList
  rw [foldl_flatMap]
  congr 1
  funext m a
  rw [List.foldl_map]

/-- Decomposing `List.range n` around one element. -/
theorem range_decomp {n : Nat} {pre rest : List Nat} {a : Nat}
    (h : List.range n = pre ++ a :: rest) : a = pre.length ∧ pre.length < n := by
  have hlen : (List.range n).length = (pre ++ a :: rest).length :=
    congrArg List.length h
  simp [List.length_append] at hlen
  have h2 : (List.range n)[pre.length]? = some a := by
    rw [h]
    rw [List.getElem?_append_right (le_refl pre.length)]
    simp
  rw [List.getElem?_range (by omega)] at h2
  exact ⟨(Option.some_injective _ h2).symm, by omega⟩

/-- The `idx` function does not depend on the matrix value. -/
theorem idx_indep {T : Type} (mx mx' : PathMatrix T) (i j : Nat) :
    mx.idx i j = mx'.idx i j := rfl

theorem getSlot?_modifySlot {T : Type} (mx : PathMatrix T) (i j a b : Nat)
    (f : Path T → Path T) :
    (mx.modifySlot i j f).getSlot? a b =
      if mx.idx i j = mx.idx a b then (mx.getSlot? a b).map f
      else mx.getSlot? a b := by
  show (mx.m.modify f (mx.idx i j))[mx.idx a b]? = _
  rw [List.getElem?_modify]
  by_cases h : mx.idx i j = mx.idx a b
  · rw [if_pos h]
    cases hx : mx.m[mx.idx a b]? <;> simp [PathMatrix.getSlot?, hx, h]
  · rw [if_neg h]
    cases hx : mx.m[mx.idx a b]? <;> simp [PathMatrix.getSlot?, hx, h]

theorem slotD_modifySlot_ne {T : Type} (mx : PathMatrix T) {i j a b : Nat}
    (f : Path T → Path T) (h : mx.idx i j ≠ mx.idx a b) :
    (mx.modifySlot i j f).slotD a b = mx.slotD a b := by
  show ((mx.modifySlot i j f).getSlot? a b).getD _ = (mx.getSlot? a b).getD _
  rw [getSlot?_modifySlot, if_neg h]

theorem slotD_modifySlot_eq {T : Type} (mx : PathMatrix T) {i j a b : Nat}
    (f : Path T → Path T) (h : mx.idx i j = mx.idx a b)
    (hin : mx.idx a b < mx.m.length) :
    (mx.modifySlot i j f).slotD a b = f (mx.slotD a b) := by
  show ((mx.modifySlot i j f).getSlot? a b).getD _ = _
  rw [getSlot?_modifySlot, if_pos h]
  obtain ⟨s, hs⟩ : ∃ s, mx.m[mx.idx a b]? = some s :=
    ⟨_, List.getElem?_eq_getElem hin⟩
  show ((mx.getSlot? a b).map f).getD _ = f ((mx.getSlot? a b).getD _)
  rw [show mx.getSlot? a b = some s from hs]
  rfl

theorem length_modifySlot {T : Type} (mx : PathMatrix T) (i j : Nat)
    (f : Path T → Path T) :
    (mx.modifySlot i j f).m.length = mx.m.length :=
  List.length_modify ..

theorem n_modifySlot {T : Type} (mx : PathMatrix T) (i j : Nat)
    (f : Path T → Path T) : (mx.modifySlot i j f).n = mx.n := rfl

theorem getSlot?_eq_slotD {T : Type} (mx : PathMatrix T) {i j : Nat}
    (hin : mx.idx i j < mx.m.length) :
    mx.getSlot? i j = some (mx.slotD i j) := by
  obtain ⟨s, hs⟩ : ∃ s, mx.m[mx.idx i j]? = some s :=
    ⟨_, List.getElem?_eq_getElem hin⟩
  show mx.m[mx.idx i j]? = some ((mx.m[mx.idx i j]?).getD _)
  rw [hs]
  rfl

/-! ### The engine invariant -/

/-- A walk whose intermediate nodes all satisfy `S`. -/
def WalkS (g : Graph) (S : Nat → Prop) (a b : Nat) (L : List Nat)
    (w : Nat) : Prop :=
  Walk g a b L w ∧ ∀ x ∈ L, S x

/-- The per-pair invariant of the engine: for every canonical pair
`i < j`, the slot is occupied exactly when a walk with intermediates in
`S` exists, and then stores such a walk (vector plus cached length) of
minimal weight among them. -/
structure Inv (g : Graph) (S : Nat → Prop) (m : PathMatrix Nat) : Prop where
  hn : m.n = g.n
  hlen : m.m.length = 1 + g.n * (g.n - 1) / 2
  complete : ∀ ⦃i j : Nat⦄, i < j → j < g.n →
    (∃ L w, WalkS g S i j L w) → (m.slotD i j).pexists = true
  sound : ∀ ⦃i j : Nat⦄, i < j → j < g.n → (m.slotD i j).pexists = true →
    WalkS g S i j (m.slotD i j).v (m.slotD i j).len
  minimal : ∀ ⦃i j : Nat⦄, i < j → j < g.n → (m.slotD i j).pexists = true →
    ∀ L w, WalkS g S i j L w → (m.slotD i j).len ≤ w

/-- The orientation-insensitive incidence of one edge reference with a
node pair. -/
def joins (e : Edge) (i j : Nat) : Prop :=
  (e.src = i ∧ e.tgt = j) ∨ (e.src = j ∧ e.tgt = i)

theorem hasEdge_iff {g : Graph} {i j w : Nat} :
    HasEdge g i j w ↔ ∃ e ∈ g.edges, joins e i j ∧ e.w = w := Iff.rfl

theorem walk_nil_edge {g : Graph} {a b w : Nat} (h : Walk g a b [] w) :
    HasEdge g a b w := by
  cases h
  assumption

theorem walkS_false_iff {g : Graph} {i j : Nat} {L : List Nat} {w : Nat} :
    WalkS g (fun _ => False) i j L w ↔ L = [] ∧ HasEdge g i j w := by
  constructor
  · rintro ⟨hw, hS⟩
    cases L with
    | nil => exact ⟨rfl, walk_nil_edge hw⟩
    | cons c L' => exact absurd (hS c (by simp)) (fun h => h)
  · rintro ⟨hL, he⟩
    subst hL
    exact ⟨Walk.single he, by simp⟩

/-- Canonical pairs below the diagonal have positive index, so diagonal
writes never touch them. -/
theorem idx_ne_zero {T : Type} (mx : PathMatrix T) {i j : Nat} (h : i < j) :
    mx.idx i j ≠ 0 := by
  rw [idx_lt_of_lt mx h]
  have := idxAux_pos h
  omega

theorem joins_canonical {e : Edge} {i j : Nat} (hij : i < j)
    (h : joins e i j) : min e.src e.tgt = i ∧ max e.src e.tgt = j := by
  rcases h with ⟨h1, h2⟩ | ⟨h1, h2⟩ <;> subst h1 <;> subst h2 <;>
    simp [Nat.min_def, Nat.max_def] <;> omega

/-- If the edge does not join the (canonical) pair, the two packed
indices differ. -/
theorem idx_ne_of_not_joins {T : Type} (mx : PathMatrix T) {e : Edge}
    {i j : Nat} (hij : i < j) (h : ¬ joins e i j) :
    mx.idx e.src e.tgt ≠ mx.idx i j := by
  rcases Nat.lt_trichotomy e.src e.tgt with hst | hst | hst
  · rw [idx_lt_of_lt mx hst, idx_lt_of_lt mx hij]
    intro hEq
    obtain ⟨h1, h2⟩ := idxAux_inj hst hij hEq
    exact h (Or.inl ⟨h1, h2⟩)
  · rw [show mx.idx e.src e.tgt = 0 from hst ▸ idx_diag mx e.src]
    exact (idx_ne_zero mx hij).symm
  · rw [show mx.idx e.src e.tgt = mx.idx e.tgt e.src from idx_symm ..,
      idx_lt_of_lt mx hst, idx_lt_of_lt mx hij]
    intro hEq
    obtain ⟨h1, h2⟩ := idxAux_inj hst hij hEq
    exact h (Or.inr ⟨h2, h1⟩)

theorem idx_eq_of_joins {T : Type} (mx : PathMatrix T) {e : Edge}
    {i j : Nat} (hij : i < j) (h : joins e i j) :
    mx.idx e.src e.tgt = mx.idx i j := by
  rcases h with ⟨h1, h2⟩ | ⟨h1, h2⟩
  · rw [h1, h2]
  · rw [h1, h2, idx_symm]

/-- The partial seeding invariant: after processing the edge prefix
`pre`, every canonical slot is occupied exactly when some edge of `pre`
joins its pair, stores an empty vector, and caches the weight of each
such edge (with no duplicate pairs there is at most one). -/
def SeedP (g : Graph) (pre : List Edge) (m : PathMatrix Nat) : Prop :=
  m.n = g.n ∧ m.m.length = 1 + g.n * (g.n - 1) / 2 ∧
  ∀ i j : Nat, i < j → j < g.n →
    (((m.slotD i j).pexists = true) ↔ ∃ e ∈ pre, joins e i j) ∧
    (m.slotD i j).v = [] ∧
    (∀ e ∈ pre, joins e i j → (m.slotD i j).len = e.w)

theorem seedP_nil (g : Graph) :
    SeedP g [] ((PathMatrix.new Nat g.n).set_path_len 0 0 0) := by
  refine ⟨rfl, by simp [PathMatrix.set_path_len, length_modifySlot, new_length], ?_⟩
  intro i j hij hjn
  have hidx : ((PathMatrix.new Nat g.n).set_path_len 0 0 0).slotD i j =
      (PathMatrix.new Nat g.n).slotD i j := by
    apply slotD_modifySlot_ne
    rw [idx_diag]
    exact (idx_ne_zero _ hij).symm
  have hdef : (PathMatrix.new Nat g.n).slotD i j = Path.default Nat := by
    have hm : (PathMatrix.new Nat g.n).m =
        List.replicate (1 + g.n * (g.n - 1) / 2) (Path.default Nat) := rfl
    unfold PathMatrix.slotD
    rw [hm, List.getElem?_replicate]
    split <;> rfl
  rw [hidx, hdef]
  refine ⟨by simp [Path.default], rfl, by simp⟩

theorem seedP_step (g : Graph) (hwf : g.Wf) (hnd : g.NodupPairs)
    (pre rest : List Edge) (e₀ : Edge) (m : PathMatrix Nat)
    (hfull : g.edges = pre ++ e₀ :: rest) (hP : SeedP g pre m) :
    SeedP g (pre ++ [e₀]) (m.set_path_len e₀.src e₀.tgt e₀.w) := by
  obtain ⟨hn, hlen, hpair⟩ := hP
  have he₀ : e₀ ∈ g.edges := by rw [hfull]; simp
  have hlen' : (m.set_path_len e₀.src e₀.tgt e₀.w).m.length = m.m.length :=
    length_modifySlot ..
  refine ⟨hn, by omega, ?_⟩
  intro i j hij hjn
  obtain ⟨hex, hv, hlens⟩ := hpair i j hij hjn
  by_cases hj : joins e₀ i j
  · have hidx : m.idx e₀.src e₀.tgt = m.idx i j := idx_eq_of_joins m hij hj
    have hin : m.idx i j < m.m.length := by
      rw [hlen]
      exact idx_lt_size m (Nat.lt_trans hij hjn) hjn
    have hslot : (m.set_path_len e₀.src e₀.tgt e₀.w).slotD i j =
        (m.slotD i j).set_len e₀.w :=
      slotD_modifySlot_eq m _ hidx hin
    rw [hslot]
    refine ⟨⟨fun _ => ⟨e₀, by simp, hj⟩, fun _ => rfl⟩,
      by simpa [Path.set_len, Path.set_vector] using hv, ?_⟩
    · intro e he hje
      rcases List.mem_append.mp he with he | he
      · exfalso
        have hpw : List.Pairwise (fun e₁ e₂ => ¬ sameUPair e₁ e₂) g.edges := hnd
        rw [hfull, List.pairwise_append] at hpw
        have := hpw.2.2 e he e₀ (by simp)
        apply this
        obtain ⟨c1, c2⟩ := joins_canonical hij hje
        obtain ⟨d1, d2⟩ := joins_canonical hij hj
        unfold sameUPair
        rcases hje with ⟨a1, a2⟩ | ⟨a1, a2⟩ <;> rcases hj with ⟨b1, b2⟩ | ⟨b1, b2⟩ <;>
          simp [a1, a2, b1, b2]
      · have : e = e₀ := by simpa using he
        subst this
        simp [Path.set_len]
  · have hidx : m.idx e₀.src e₀.tgt ≠ m.idx i j := idx_ne_of_not_joins m hij hj
    have hslot : (m.set_path_len e₀.src e₀.tgt e₀.w).slotD i j = m.slotD i j :=
      slotD_modifySlot_ne m _ hidx
    rw [hslot]
    refine ⟨?_, hv, ?_⟩
    · rw [hex]
      constructor
      · rintro ⟨e, he, hje⟩
        exact ⟨e, by simp [he], hje⟩
      · rintro ⟨e, he, hje⟩
        rcases List.mem_append.mp he with he | he
        · exact ⟨e, he, hje⟩
        · have : e = e₀ := by simpa using he
          subst this
          exact absurd hje hj
    · intro e he hje
      rcases List.mem_append.mp he with he | he
      · exact hlens e he hje
      · have : e = e₀ := by simpa using he
        subst this
        exact absurd hje hj

/-- After the initialization phase the matrix satisfies the invariant for
the empty set of permitted intermediate nodes. -/
theorem seed_inv (g : Graph) (hwf : g.Wf) (hnd : g.NodupPairs) :
    Inv g (fun _ => False) (seedMatrix g) := by
  have hseed : SeedP g g.edges (seedMatrix g) := by
    unfold seedMatrix
    exact foldl_split_invariant g.edges _ (SeedP g)
      (fun pre a rest s hfull hP => seedP_step g hwf hnd pre rest a s hfull hP)
      g.edges [] _ rfl (seedP_nil g)
  obtain ⟨hn, hlen, hpair⟩ := hseed
  refine ⟨hn, hlen, ?_, ?_, ?_⟩
  · intro i j hij hjn hex
    obtain ⟨L, w, hw⟩ := hex
    obtain ⟨hL, he⟩ := walkS_false_iff.mp hw
    obtain ⟨e, he', hje, hew⟩ := hasEdge_iff.mp he
    exact ((hpair i j hij hjn).1).mpr ⟨e, he', hje⟩
  · intro i j hij hjn hex
    obtain ⟨hex', hv, hlens⟩ := hpair i j hij hjn
    obtain ⟨e, he, hje⟩ := hex'.mp hex
    rw [walkS_false_iff, hv]
    exact ⟨rfl, hasEdge_iff.mpr ⟨e, he, hje, (hlens e he hje).symm⟩⟩
  · intro i j hij hjn hex L w hw
    obtain ⟨hex', hv, hlens⟩ := hpair i j hij hjn
    obtain ⟨hL, he⟩ := walkS_false_iff.mp hw
    obtain ⟨e, he', hje, hew⟩ := hasEdge_iff.mp he
    rw [hlens e he' hje, hew]

/-! ### The relaxation pass -/

theorem satAdd_le_add (a b : Nat) : satAdd a b ≤ a + b := Nat.min_le_left _ _

theorem satAdd_eq_add {a b : Nat} (h : a + b ≤ usizeMax) : satAdd a b = a + b :=
  Nat.min_eq_left h

theorem slotD_symm {T : Type} (mx : PathMatrix T) (i j : Nat) :
    mx.slotD i j = mx.slotD j i := by
  unfold PathMatrix.slotD
  rw [idx_symm]

/-- Packed indices of two distinct-endpoint pairs agree only when the
unordered pairs agree. -/
theorem idx_inj_pairs {T : Type} (mx : PathMatrix T) {x y u v : Nat}
    (hxy : x ≠ y) (huv : u ≠ v) (h : mx.idx x y = mx.idx u v) :
    min x y = min u v ∧ max x y = max u v := by
  rw [idx_eq_idxAux, idx_eq_idxAux] at h
  exact idxAux_inj (by omega) (by omega) h

theorem fwStep_skip {k n1 n2 : Nat} (m : PathMatrix Nat)
    (h : n1 = n2 ∨ n1 > n2 ∨ n1 = k ∨ n2 = k) : fwStep k n1 n2 m = m := by
  unfold fwStep
  by_cases h12 : n1 = n2
  · rw [if_pos h12]
  · rw [if_neg h12]
    by_cases hgt : n1 > n2
    · rw [if_pos hgt]
    · rw [if_neg hgt]
      rcases h with h | h | h | h
      · exact absurd h h12
      · exact absurd h hgt
      · rw [if_pos (Or.inl h)]
      · rw [if_pos (Or.inr h)]

theorem fwStep_active {k n1 n2 : Nat} (m : PathMatrix Nat)
    (h1 : n1 < n2) (h2 : n1 ≠ k) (h3 : n2 ≠ k) :
    fwStep k n1 n2 m =
      (if (m.slotD n1 k).pexists && (m.slotD k n2).pexists then
        (if (m.slotD n1 n2).pexists then
           (if satAdd (m.slotD n1 k).len (m.slotD k n2).len <
                (m.slotD n1 n2).len then
              fwUpdate k n1 n2
                (satAdd (m.slotD n1 k).len (m.slotD k n2).len) m
            else m)
         else fwUpdate k n1 n2
           (satAdd (m.slotD n1 k).len (m.slotD k n2).len) m)
      else m) := by
  have e1 : ¬ n1 = n2 := by omega
  have e2 : ¬ n1 > n2 := by omega
  have e3 : ¬ (n1 = k ∨ n2 = k) := by tauto
  cases hx : ((m.slotD n1 k).pexists && (m.slotD k n2).pexists) with
  | false => simp [fwStep, e1, e2, e3, hx]
  | true =>
    cases hy : (m.slotD n1 n2).pexists with
    | false => simp [fwStep, e1, e2, e3, hx, hy]
    | true => simp [fwStep, e1, e2, e3, hx, hy]

/-- The slot written by `fwUpdate`, in terms of the pre-state. -/
theorem fwUpdate_slot_same {k n1 n2 : Nat} (v2v : Nat) (m : PathMatrix Nat)
    (h1 : n1 < n2) (h2 : n1 ≠ k) (h3 : n2 ≠ k)
    (hin : m.idx n1 n2 < m.m.length) :
    (fwUpdate k n1 n2 v2v m).slotD n1 n2 =
      ⟨(if n1 ≤ k then (m.slotD n1 k).v else (m.slotD n1 k).v.reverse) ++
        k :: (if k ≤ n2 then (m.slotD k n2).v else (m.slotD k n2).v.reverse),
       v2v, true⟩ := by
  have hne1 : m.idx n1 n2 ≠ m.idx n1 k := by
    intro h
    obtain ⟨hmin, hmax⟩ := idx_inj_pairs m (by omega) (by omega) h.symm
    omega
  have hne2 : m.idx n1 n2 ≠ m.idx k n2 := by
    intro h
    obtain ⟨hmin, hmax⟩ := idx_inj_pairs m (by omega) (by omega) h.symm
    omega
  have hs1 : (m.set_path_len n1 n2 v2v).slotD n1 k = m.slotD n1 k :=
    slotD_modifySlot_ne m _ hne1
  have hs2 : (m.set_path_len n1 n2 v2v).slotD k n2 = m.slotD k n2 :=
    slotD_modifySlot_ne m _ hne2
  have hlen' : (m.set_path_len n1 n2 v2v).m.length = m.m.length :=
    length_modifySlot ..
  unfold fwUpdate
  simp only [PathMatrix.get_path_iter]
  rw [hs1, hs2]
  rw [show ∀ t : List Nat, ((m.set_path_len n1 n2 v2v).set_path_vector n1 n2 t).slotD n1 n2 =
      (((m.set_path_len n1 n2 v2v)).slotD n1 n2).set_vector t from
    fun t => slotD_modifySlot_eq _ _ rfl (by rw [hlen']; exact hin)]
  rw [show (m.set_path_len n1 n2 v2v).slotD n1 n2 = (m.slotD n1 n2).set_len v2v from
    slotD_modifySlot_eq m _ rfl hin]
  rfl

/-- `fwUpdate` leaves every other slot untouched. -/
theorem fwUpdate_slot_other {k n1 n2 v2v a b : Nat} (m : PathMatrix Nat)
    (h : m.idx n1 n2 ≠ m.idx a b) :
    (fwUpdate k n1 n2 v2v m).slotD a b = m.slotD a b := by
  have h' : ∀ mx : PathMatrix Nat, mx.idx n1 n2 ≠ mx.idx a b := fun _ => h
  unfold fwUpdate
  simp only [PathMatrix.set_path_vector, PathMatrix.set_path_len]
  rw [slotD_modifySlot_ne _ _ (h' _), slotD_modifySlot_ne _ _ (h' _)]

theorem fwUpdate_length {k n1 n2 v2v : Nat} (m : PathMatrix Nat) :
    (fwUpdate k n1 n2 v2v m).m.length = m.m.length := by
  unfold fwUpdate
  simp only [PathMatrix.set_path_vector, PathMatrix.set_path_len]
  rw [length_modifySlot, length_modifySlot]

theorem fwUpdate_n {k n1 n2 v2v : Nat} (m : PathMatrix Nat) :
    (fwUpdate k n1 n2 v2v m).n = m.n := rfl

/-- The per-pair set of permitted intermediates in the middle of pass
`k`, after the prefix `P` of loop iterations: pairs already relaxed in
this pass (and not skipped for having `k` as an endpoint) may use `k`,
the rest only nodes below `k`. -/
def pairLevel (k : Nat) (P : List (Nat × Nat)) (i j : Nat) : Nat → Prop :=
  fun x => if (i, j) ∈ P ∧ i ≠ k ∧ j ≠ k then x < k + 1 else x < k

/-- The invariant in the middle of pass `k`. -/
def MidInv (g : Graph) (k : Nat) (P : List (Nat × Nat))
    (m : PathMatrix Nat) : Prop :=
  m.n = g.n ∧ m.m.length = 1 + g.n * (g.n - 1) / 2 ∧
  ∀ i j : Nat, i < j → j < g.n →
    ((∃ L w, WalkS g (pairLevel k P i j) i j L w) →
      (m.slotD i j).pexists = true) ∧
    ((m.slotD i j).pexists = true →
      WalkS g (pairLevel k P i j) i j (m.slotD i j).v (m.slotD i j).len) ∧
    ((m.slotD i j).pexists = true →
      ∀ L w, WalkS g (pairLevel k P i j) i j L w → (m.slotD i j).len ≤ w)

theorem walkS_congr {g : Graph} {S S' : Nat → Prop} {a b w : Nat}
    {L : List Nat} (h : ∀ x, S x ↔ S' x) :
    WalkS g S a b L w ↔ WalkS g S' a b L w := by
  unfold WalkS
  constructor
  · rintro ⟨hw, hs⟩
    exact ⟨hw, fun x hx => (h x).mp (hs x hx)⟩
  · rintro ⟨hw, hs⟩
    exact ⟨hw, fun x hx => (h x).mpr (hs x hx)⟩

theorem pairLevel_endpoint {k : Nat} {P : List (Nat × Nat)} {i j : Nat}
    (h : i = k ∨ j = k) (x : Nat) : pairLevel k P i j x ↔ x < k := by
  unfold pairLevel
  rw [if_neg (by tauto)]

theorem pairLevel_not_mem {k : Nat} {P : List (Nat × Nat)} {i j : Nat}
    (h : (i, j) ∉ P) (x : Nat) : pairLevel k P i j x ↔ x < k := by
  unfold pairLevel
  rw [if_neg (by tauto)]

theorem pairLevel_mem {k : Nat} {P : List (Nat × Nat)} {i j : Nat}
    (hm : (i, j) ∈ P) (hik : i ≠ k) (hjk : j ≠ k) (x : Nat) :
    pairLevel k P i j x ↔ x < k + 1 := by
  unfold pairLevel
  rw [if_pos ⟨hm, hik, hjk⟩]

/-- Appending an irrelevant pair does not change a pair's level. -/
theorem pairLevel_snoc_ne {k : Nat} {P : List (Nat × Nat)} {i j : Nat}
    {ab : Nat × Nat} (h : (i, j) ≠ ab) (x : Nat) :
    pairLevel k (P ++ [ab]) i j x ↔ pairLevel k P i j x := by
  unfold pairLevel
  have hmem : ((i, j) ∈ P ++ [ab]) ↔ ((i, j) ∈ P) := by
    rw [List.mem_append]
    constructor
    · rintro (hm | hm)
      · exact hm
      · exact absurd (by simpa using hm) h
    · exact fun hm => Or.inl hm
  exact iff_of_eq (if_congr (and_congr hmem Iff.rfl) rfl rfl)

theorem midInv_congr {g : Graph} {k : Nat} {P P' : List (Nat × Nat)}
    {m : PathMatrix Nat}
    (h : ∀ i j : Nat, i < j → j < g.n →
      ∀ x, pairLevel k P' i j x ↔ pairLevel k P i j x)
    (hP : MidInv g k P m) : MidInv g k P' m := by
  obtain ⟨hn, hlen, hpair⟩ := hP
  refine ⟨hn, hlen, ?_⟩
  intro i j hij hjn
  obtain ⟨hc, hs, hm⟩ := hpair i j hij hjn
  refine ⟨?_, ?_, ?_⟩
  · rintro ⟨L, w, hw⟩
    exact hc ⟨L, w, (walkS_congr (h i j hij hjn)).mp hw⟩
  · intro hex
    exact (walkS_congr (h i j hij hjn)).mpr (hs hex)
  · intro hex L w hw
    exact hm hex L w ((walkS_congr (h i j hij hjn)).mp hw)

/-- Splitting a walk through `k` with intermediates below `k + 1` into two
walks with intermediates below `k` of no larger total weight. -/
theorem walk_through_k {g : Graph} {k a b w : Nat} {L : List Nat}
    (hw : Walk g a b L w) (hS : ∀ x ∈ L, x < k + 1) (hkL : k ∈ L) :
    ∃ L₁ w₁ L₂ w₂, Walk g a k L₁ w₁ ∧ (∀ x ∈ L₁, x < k) ∧
      Walk g k b L₂ w₂ ∧ (∀ x ∈ L₂, x < k) ∧ w₁ + w₂ ≤ w := by
  obtain ⟨P, Q, w₁, w₂, hEq, hnP, hwP, hwQ, hsum⟩ := walk_split hw k hkL
  have hP : ∀ x ∈ P, x < k := by
    intro x hx
    have h1 : x < k + 1 := hS x (by rw [hEq]; simp [hx])
    have h2 : x ≠ k := fun hc => hnP (hc ▸ hx)
    omega
  obtain ⟨Q', w₂', hwQ', hle, hnd, hsub, hkQ', _⟩ :=
    walk_decycle Q.length (le_refl _) hwQ
  have hQ : ∀ x ∈ Q', x < k := by
    intro x hx
    have h1 : x < k + 1 := hS x (by rw [hEq]; simp [hsub x hx])
    have h2 : x ≠ k := fun hc => hkQ' (hc ▸ hx)
    omega
  exact ⟨P, w₁, Q', w₂', hwP, hP, hwQ', hQ, by omega⟩

/-- A stored minimal length is bounded by `(n + 1) · W` when every edge
weight is bounded by `W`. -/
theorem len_le_of_sound_minimal {g : Graph} {S : Nat → Prop} {W x y : Nat}
    {p : Path Nat} (hwf : g.Wf) (hW : ∀ e ∈ g.edges, e.w ≤ W)
    (hsound : WalkS g S x y p.v p.len)
    (hmin : ∀ L w, WalkS g S x y L w → p.len ≤ w) :
    p.len ≤ (g.n + 1) * W := by
  obtain ⟨hwalk, hS⟩ := hsound
  obtain ⟨L', w', hw', hle, hnd, hsub, _, _⟩ :=
    walk_decycle p.v.length (le_refl _) hwalk
  have hless : p.len ≤ w' := hmin L' w' ⟨hw', fun z hz => hS z (hsub z hz)⟩
  have hBnd : w' ≤ (L'.length + 1) * W := walk_weight_le hw' hW
  have hlt : ∀ z ∈ L', z < g.n := fun z hz => (walk_lt hwf hw').2.2 z hz
  have hlen' : L'.length ≤ g.n := nodup_length_le hnd hlt
  have hmul : (L'.length + 1) * W ≤ (g.n + 1) * W :=
    Nat.mul_le_mul_right W (by omega)
  omega

/-- The three facts the relaxation needs about a matrix pair `(x, y)`
whose canonical slot is at level `(· < k)`, stated in the traversal
direction `x → y`: occupancy from a walk, the stored (possibly reversed)
vector being a walk of the cached length, and minimality. -/
theorem midInv_oriented {g : Graph} {k : Nat} {P : List (Nat × Nat)}
    {m : PathMatrix Nat} (hmid : MidInv g k P m) {x y : Nat}
    (hxy : x ≠ y) (hx : x < g.n) (hy : y < g.n)
    (hlvl : ∀ z, pairLevel k P (min x y) (max x y) z ↔ z < k) :
    ((∃ L w, Walk g x y L w ∧ ∀ z ∈ L, z < k) →
      (m.slotD x y).pexists = true) ∧
    ((m.slotD x y).pexists = true →
      Walk g x y (if x ≤ y then (m.slotD x y).v else (m.slotD x y).v.reverse)
        (m.slotD x y).len ∧
      ∀ z ∈ (m.slotD x y).v, z < k) ∧
    ((m.slotD x y).pexists = true →
      ∀ L w, Walk g x y L w → (∀ z ∈ L, z < k) → (m.slotD x y).len ≤ w) := by
  obtain ⟨hn, hlen, hpair⟩ := hmid
  rcases Nat.lt_or_ge x y with hlt | hge
  · have hmin : min x y = x := by omega
    have hmax : max x y = y := by omega
    rw [hmin, hmax] at hlvl
    obtain ⟨hc, hs, hm⟩ := hpair x y hlt hy
    refine ⟨?_, ?_, ?_⟩
    · rintro ⟨L, w, hw, hz⟩
      exact hc ⟨L, w, hw, fun z hz' => (hlvl z).mpr (hz z hz')⟩
    · intro hex
      obtain ⟨hw, hz⟩ := hs hex
      rw [if_pos (by omega : x ≤ y)]
      exact ⟨hw, fun z hz' => (hlvl z).mp (hz z hz')⟩
    · intro hex L w hw hz
      exact hm hex L w ⟨hw, fun z hz' => (hlvl z).mpr (hz z hz')⟩
  · have hlt : y < x := by omega
    have hmin : min x y = y := by omega
    have hmax : max x y = x := by omega
    rw [hmin, hmax] at hlvl
    obtain ⟨hc, hs, hm⟩ := hpair y x hlt hx
    have hsymm : m.slotD x y = m.slotD y x := slotD_symm m x y
    rw [hsymm]
    refine ⟨?_, ?_, ?_⟩
    · rintro ⟨L, w, hw, hz⟩
      refine hc ⟨L.reverse, w, walk_reverse hw, ?_⟩
      intro z hz'
      exact (hlvl z).mpr (hz z (List.mem_reverse.mp hz'))
    · intro hex
      obtain ⟨hw, hz⟩ := hs hex
      rw [if_neg (by omega : ¬ x ≤ y)]
      exact ⟨walk_reverse hw, fun z hz' => (hlvl z).mp (hz z hz')⟩
    · intro hex L w hw hz
      refine hm hex L.reverse w ⟨walk_reverse hw, ?_⟩
      intro z hz'
      exact (hlvl z).mpr (hz z (List.mem_reverse.mp hz'))

/-- Every occupied slot of a mid-pass state stores a length bounded by
`(n + 1) · W`. -/
theorem midInv_len_bound {g : Graph} {k W : Nat} {P : List (Nat × Nat)}
    {m : PathMatrix Nat} (hmid : MidInv g k P m) (hwf : g.Wf)
    (hW : ∀ e ∈ g.edges, e.w ≤ W) {x y : Nat}
    (hxy : x ≠ y) (hx : x < g.n) (hy : y < g.n)
    (hex : (m.slotD x y).pexists = true) :
    (m.slotD x y).len ≤ (g.n + 1) * W := by
  obtain ⟨hn, hlen, hpair⟩ := hmid
  rcases Nat.lt_or_ge x y with hlt | hge
  · obtain ⟨-, hs, hm⟩ := hpair x y hlt hy
    exact len_le_of_sound_minimal hwf hW (hs hex) (hm hex)
  · have hlt : y < x := by omega
    rw [slotD_symm m x y] at hex ⊢
    obtain ⟨-, hs, hm⟩ := hpair y x hlt hx
    exact len_le_of_sound_minimal hwf hW (hs hex) (hm hex)

/-- Assembling the mid-pass invariant for the extended prefix from the
three properties of the relaxed pair and untouched other slots. -/
theorem midInv_extend {g : Graph} {k : Nat} {P : List (Nat × Nat)}
    {a b : Nat} {m : PathMatrix Nat}
    (hP : MidInv g k P m) (hab : a < b) (hbn : b < g.n)
    (hak : a ≠ k) (hbk : b ≠ k)
    (m'' : PathMatrix Nat)
    (hn'' : m''.n = m.n) (hlen'' : m''.m.length = m.m.length)
    (hother : ∀ i j : Nat, i < j → j < g.n → (i, j) ≠ (a, b) →
      m''.slotD i j = m.slotD i j)
    (hc : (∃ L w, WalkS g (fun z => z < k + 1) a b L w) →
      (m''.slotD a b).pexists = true)
    (hs : (m''.slotD a b).pexists = true →
      WalkS g (fun z => z < k + 1) a b (m''.slotD a b).v (m''.slotD a b).len)
    (hm : (m''.slotD a b).pexists = true →
      ∀ L w, WalkS g (fun z => z < k + 1) a b L w →
        (m''.slotD a b).len ≤ w) :
    MidInv g k (P ++ [(a, b)]) m'' := by
  obtain ⟨hn, hlen, hpair⟩ := hP
  refine ⟨by rw [hn'', hn], by rw [hlen'', hlen], ?_⟩
  intro i j hij hjn
  by_cases hEq : (i, j) = (a, b)
  · have hia : i = a := congrArg Prod.fst hEq
    have hjb : j = b := congrArg Prod.snd hEq
    subst hia
    subst hjb
    have hlvl : ∀ x, pairLevel k (P ++ [(i, j)]) i j x ↔ x < k + 1 :=
      pairLevel_mem (by simp) hak hbk
    refine ⟨?_, ?_, ?_⟩
    · rintro ⟨L, w, hw⟩
      exact hc ⟨L, w, (walkS_congr hlvl).mp hw⟩
    · intro hex
      exact (walkS_congr hlvl).mpr (hs hex)
    · intro hex L w hw
      exact hm hex L w ((walkS_congr hlvl).mp hw)
  · have hslot : m''.slotD i j = m.slotD i j := hother i j hij hjn hEq
    have hlvl : ∀ x, pairLevel k (P ++ [(a, b)]) i j x ↔ pairLevel k P i j x :=
      pairLevel_snoc_ne hEq
    obtain ⟨hc', hs', hm'⟩ := hpair i j hij hjn
    rw [hslot]
    refine ⟨?_, ?_, ?_⟩
    · rintro ⟨L, w, hw⟩
      exact hc' ⟨L, w, (walkS_congr hlvl).mp hw⟩
    · intro hex
      exact (walkS_congr hlvl).mpr (hs' hex)
    · intro hex L w hw
      exact hm' hex L w ((walkS_congr hlvl).mp hw)

/-- One iteration of the inner double loop preserves the mid-pass
invariant, moving its pair from level `k` to level `k + 1`. -/
theorem midInv_step (g : Graph) (W k : Nat) (hwf : g.Wf)
    (hW : ∀ e ∈ g.edges, e.w ≤ W) (hM : 2 * ((g.n + 1) * W) ≤ usizeMax)
    (hk : k < g.n) (P rest : List (Nat × Nat)) (ab : Nat × Nat)
    (m : PathMatrix Nat) (hfull : pairList g.n = P ++ ab :: rest)
    (hP : MidInv g k P m) :
    MidInv g k (P ++ [ab]) (fwStep k ab.1 ab.2 m) := by
  obtain ⟨a, b⟩ := ab
  simp only
  have hmem : (a, b) ∈ pairList g.n := by rw [hfull]; simp
  have han : a < g.n := (mem_pairList.mp hmem).1
  have hbn : b < g.n := (mem_pairList.mp hmem).2
  have hnotP : (a, b) ∉ P := by
    have hnd' := nodup_pairList g.n
    rw [hfull] at hnd'
    obtain ⟨-, -, hdisj⟩ := List.nodup_append.mp hnd'
    exact fun hmem' => hdisj hmem' (by simp)
  by_cases hskip : a = b ∨ a > b ∨ a = k ∨ b = k
  · rw [fwStep_skip m hskip]
    apply midInv_congr _ hP
    intro i j hij hjn x
    by_cases hEq : (i, j) = (a, b)
    · have hia : i = a := congrArg Prod.fst hEq
      have hjb : j = b := congrArg Prod.snd hEq
      subst hia
      subst hjb
      have hik : i = k ∨ j = k := by
        rcases hskip with h | h | h | h
        · omega
        · omega
        · exact Or.inl h
        · exact Or.inr h
      rw [pairLevel_endpoint hik, pairLevel_endpoint hik]
    · exact pairLevel_snoc_ne hEq x
  · push_neg at hskip
    obtain ⟨hne, hngt, hak, hbk⟩ := hskip
    have hab : a < b := by omega
    rw [fwStep_active m hab hak hbk]
    have hlvl1 : ∀ z, pairLevel k P (min a k) (max a k) z ↔ z < k :=
      fun z => pairLevel_endpoint (by omega) z
    have hlvl2 : ∀ z, pairLevel k P (min k b) (max k b) z ↔ z < k :=
      fun z => pairLevel_endpoint (by omega) z
    obtain ⟨hC1, hS1, hM1⟩ := midInv_oriented hP hak han hk hlvl1
    obtain ⟨hC2, hS2, hM2⟩ := midInv_oriented hP (by omega : k ≠ b) hk hbn hlvl2
    have hlvlab : ∀ z, pairLevel k P a b z ↔ z < k := pairLevel_not_mem hnotP
    obtain ⟨hn, hlen, hpair⟩ := hP
    obtain ⟨hCab, hSab, hMab⟩ := hpair a b hab hbn
    have hinab : m.idx a b < m.m.length := by
      rw [hlen]
      exact idx_lt_size m han hbn
    have hboth : ∀ L w, Walk g a b L w → (∀ z ∈ L, z < k + 1) → k ∈ L →
        (m.slotD a k).pexists = true ∧ (m.slotD k b).pexists = true := by
      intro L w hw hz hkL
      obtain ⟨L₁, w₁, L₂, w₂, hw1, hz1, hw2, hz2, hle⟩ :=
        walk_through_k hw hz hkL
      exact ⟨hC1 ⟨L₁, w₁, hw1, hz1⟩, hC2 ⟨L₂, w₂, hw2, hz2⟩⟩
    have hidxne : ∀ i j : Nat, i < j → (i, j) ≠ (a, b) →
        m.idx a b ≠ m.idx i j := by
      intro i j hij hEq hidx
      obtain ⟨hmn, hmx⟩ := idx_inj_pairs m (by omega) (by omega) hidx
      have h1 : i = a := by omega
      have h2 : j = b := by omega
      exact hEq (by rw [h1, h2])
    have hoffk : ∀ L : List Nat, (∀ z ∈ L, z < k + 1) → k ∉ L →
        ∀ z ∈ L, z < k := by
      intro L hz hkL z hz'
      have h1 := hz z hz'
      have h2 : z ≠ k := fun hc => hkL (hc ▸ hz')
      omega
    cases hx : ((m.slotD a k).pexists && (m.slotD k b).pexists) with
    | false =>
      rw [if_neg (by simp [hx])]
      apply midInv_extend ⟨hn, hlen, hpair⟩ hab hbn hak hbk m rfl rfl
        (fun _ _ _ _ _ => rfl)
      · rintro ⟨L, w, hw, hz⟩
        by_cases hkL : k ∈ L
        · exfalso
          obtain ⟨he1, he2⟩ := hboth L w hw hz hkL
          rw [he1, he2] at hx
          simp at hx
        · exact hCab ⟨L, w, hw, fun z hz' =>
            (hlvlab z).mpr (hoffk L hz hkL z hz')⟩
      · intro hex
        obtain ⟨hw, hz⟩ := hSab hex
        refine ⟨hw, fun z hz' => ?_⟩
        have := (hlvlab z).mp (hz z hz')
        omega
      · rintro hex L w ⟨hw, hz⟩
        by_cases hkL : k ∈ L
        · exfalso
          obtain ⟨he1, he2⟩ := hboth L w hw hz hkL
          rw [he1, he2] at hx
          simp at hx
        · exact hMab hex L w ⟨hw, fun z hz' =>
            (hlvlab z).mpr (hoffk L hz hkL z hz')⟩
    | true =>
      rw [Bool.and_eq_true] at hx
      obtain ⟨hx1, hx2⟩ := hx
      rw [if_pos (rfl : (true : Bool) = true)]
      obtain ⟨hw1, hz1v⟩ := hS1 hx1
      obtain ⟨hw2, hz2v⟩ := hS2 hx2
      have hb1 : (m.slotD a k).len ≤ (g.n + 1) * W :=
        midInv_len_bound ⟨hn, hlen, hpair⟩ hwf hW hak han hk hx1
      have hb2 : (m.slotD k b).len ≤ (g.n + 1) * W :=
        midInv_len_bound ⟨hn, hlen, hpair⟩ hwf hW (by omega : k ≠ b) hk hbn hx2
      have hsat : (m.slotD a k).len + (m.slotD k b).len ≤ usizeMax := by omega
      have hv2v : satAdd (m.slotD a k).len (m.slotD k b).len =
          (m.slotD a k).len + (m.slotD k b).len := satAdd_eq_add hsat
      have hsplice : Walk g a b
          ((if a ≤ k then (m.slotD a k).v else (m.slotD a k).v.reverse) ++
            k :: (if k ≤ b then (m.slotD k b).v else (m.slotD k b).v.reverse))
          ((m.slotD a k).len + (m.slotD k b).len) := walk_append hw1 hw2
      have hdir : ∀ (c : Prop) [Decidable c] (v : List Nat) (z : Nat),
          z ∈ (if c then v else v.reverse) → z ∈ v := by
        intro c _ v z hzz
        split at hzz
        · exact hzz
        · exact List.mem_reverse.mp hzz
      have hvecz : ∀ z ∈ ((if a ≤ k then (m.slotD a k).v
            else (m.slotD a k).v.reverse) ++
            k :: (if k ≤ b then (m.slotD k b).v
              else (m.slotD k b).v.reverse)), z < k + 1 := by
        intro z hzm
        rcases List.mem_append.mp hzm with h | h
        · have := hz1v z (hdir (a ≤ k) ((m.slotD a k).v) z h)
          omega
        · rcases List.mem_cons.mp h with h | h
          · omega
          · have := hz2v z (hdir (k ≤ b) ((m.slotD k b).v) z h)
            omega
      have hthrough : ∀ L w, Walk g a b L w → (∀ z ∈ L, z < k + 1) → k ∈ L →
          (m.slotD a k).len + (m.slotD k b).len ≤ w := by
        intro L w hw hz hkL
        obtain ⟨L₁, w₁, L₂, w₂, hwa, hza, hwb, hzb, hle⟩ :=
          walk_through_k hw hz hkL
        have h1 := hM1 hx1 L₁ w₁ hwa hza
        have h2 := hM2 hx2 L₂ w₂ hwb hzb
        omega
      have hupdate : ((m.slotD a b).pexists = false ∨
          satAdd (m.slotD a k).len (m.slotD k b).len < (m.slotD a b).len) →
          MidInv g k (P ++ [(a, b)])
            (fwUpdate k a b (satAdd (m.slotD a k).len (m.slotD k b).len) m) := by
        intro hcase
        have hslot := fwUpdate_slot_same
          (satAdd (m.slotD a k).len (m.slotD k b).len) m hab hak hbk hinab
        apply midInv_extend ⟨hn, hlen, hpair⟩ hab hbn hak hbk _
          (fwUpdate_n m) (fwUpdate_length m)
          (fun i j hij _ hEq => fwUpdate_slot_other m (hidxne i j hij hEq))
        · intro _
          rw [hslot]
        · intro _
          rw [hslot]
          exact ⟨by rw [hv2v]; exact hsplice, hvecz⟩
        · rintro _ L w ⟨hw, hz⟩
          rw [hslot]
          simp only
          rw [hv2v]
          by_cases hkL : k ∈ L
          · exact hthrough L w hw hz hkL
          · rcases hcase with hcase | hcase
            · exfalso
              have : (m.slotD a b).pexists = true := hCab ⟨L, w, hw,
                fun z hz' => (hlvlab z).mpr (hoffk L hz hkL z hz')⟩
              rw [hcase] at this
              simp at this
            · have hold : (m.slotD a b).len ≤ w := by
                have hex' : (m.slotD a b).pexists = true := by
                  cases hpe : (m.slotD a b).pexists with
                  | true => rfl
                  | false =>
                    exfalso
                    have : (m.slotD a b).pexists = true := hCab ⟨L, w, hw,
                      fun z hz' => (hlvlab z).mpr (hoffk L hz hkL z hz')⟩
                    rw [hpe] at this
                    simp at this
                exact hMab hex' L w ⟨hw,
                  fun z hz' => (hlvlab z).mpr (hoffk L hz hkL z hz')⟩
              rw [hv2v] at hcase
              omega
      cases hy : (m.slotD a b).pexists with
      | false =>
        rw [if_neg (by simp [hy])]
        exact hupdate (Or.inl hy)
      | true =>
        rw [if_pos (rfl : (true : Bool) = true)]
        by_cases himp : satAdd (m.slotD a k).len (m.slotD k b).len <
            (m.slotD a b).len
        · rw [if_pos himp]
          exact hupdate (Or.inr himp)
        · rw [if_neg himp]
          apply midInv_extend ⟨hn, hlen, hpair⟩ hab hbn hak hbk m rfl rfl
            (fun _ _ _ _ _ => rfl)
          · intro _
            exact hy
          · intro hex
            obtain ⟨hw, hz⟩ := hSab hex
            refine ⟨hw, fun z hz' => ?_⟩
            have := (hlvlab z).mp (hz z hz')
            omega
          · rintro hex L w ⟨hw, hz⟩
            by_cases hkL : k ∈ L
            · have h1 := hthrough L w hw hz hkL
              rw [hv2v] at himp
              omega
            · exact hMab hex L w ⟨hw, fun z hz' =>
                (hlvlab z).mpr (hoffk L hz hkL z hz')⟩

theorem inv_congr {g : Graph} {S S' : Nat → Prop} {m : PathMatrix Nat}
    (h : ∀ x, S x ↔ S' x) (hInv : Inv g S m) : Inv g S' m := by
  obtain ⟨hn, hlen, hc, hs, hm⟩ := hInv
  refine ⟨hn, hlen, ?_, ?_, ?_⟩
  · rintro i j hij hjn ⟨L, w, hw⟩
    exact hc hij hjn ⟨L, w, (walkS_congr h).mpr hw⟩
  · intro i j hij hjn hex
    exact (walkS_congr h).mp (hs hij hjn hex)
  · intro i j hij hjn hex L w hw
    exact hm hij hjn hex L w ((walkS_congr h).mpr hw)

/-- One full pass of the outer loop advances the invariant from the
intermediate set `{0, …, k-1}` to `{0, …, k}`. -/
theorem fwPass_inv (g : Graph) (W k : Nat) (hwf : g.Wf)
    (hW : ∀ e ∈ g.edges, e.w ≤ W) (hM : 2 * ((g.n + 1) * W) ≤ usizeMax)
    (hk : k < g.n) (m : PathMatrix Nat)
    (hInv : Inv g (fun x => x < k) m) :
    Inv g (fun x => x < k + 1) (fwPass g.n k m) := by
  have hmid0 : MidInv g k [] m := by
    obtain ⟨hn, hlen, hc, hs, hm⟩ := hInv
    refine ⟨hn, hlen, ?_⟩
    intro i j hij hjn
    have hlvl : ∀ x, pairLevel k [] i j x ↔ x < k :=
      pairLevel_not_mem (by simp)
    refine ⟨?_, ?_, ?_⟩
    · rintro ⟨L, w, hw⟩
      exact hc hij hjn ⟨L, w, (walkS_congr hlvl).mp hw⟩
    · intro hex
      exact (walkS_congr hlvl).mpr (hs hij hjn hex)
    · intro hex L w hw
      exact hm hij hjn hex L w ((walkS_congr hlvl).mp hw)
  have hmidfull : MidInv g k (pairList g.n) (fwPass g.n k m) := by
    rw [fwPass_eq_foldl]
    exact foldl_split_invariant (pairList g.n) _ (MidInv g k)
      (fun pre ab rest s hfull hP =>
        midInv_step g W k hwf hW hM hk pre rest ab s hfull hP)
      (pairList g.n) [] m rfl hmid0
  obtain ⟨hn, hlen, hpair⟩ := hmidfull
  refine ⟨hn, hlen, ?_, ?_, ?_⟩
  · rintro i j hij hjn ⟨L, w, hw, hz⟩
    obtain ⟨hc, hs, hm⟩ := hpair i j hij hjn
    by_cases hijk : i ≠ k ∧ j ≠ k
    · have hlvl : ∀ x, pairLevel k (pairList g.n) i j x ↔ x < k + 1 :=
        pairLevel_mem (mem_pairList.mpr ⟨by omega, hjn⟩) hijk.1 hijk.2
      exact hc ⟨L, w, hw, fun z hz' => (hlvl z).mpr (hz z hz')⟩
    · have hik : i = k ∨ j = k := by tauto
      have hlvl : ∀ x, pairLevel k (pairList g.n) i j x ↔ x < k :=
        pairLevel_endpoint hik
      obtain ⟨L', w', hw', hle, hnd, hsub, hiL, hjL⟩ :=
        walk_decycle L.length (le_refl _) hw
      refine hc ⟨L', w', hw', fun z hz' => (hlvl z).mpr ?_⟩
      have h1 : z < k + 1 := hz z (hsub z hz')
      have h2 : z ≠ k := by
        rcases hik with hik | hik
        · exact fun hc' => hiL (by rw [← hik] at hc'; exact hc' ▸ hz')
        · exact fun hc' => hjL (by rw [← hik] at hc'; exact hc' ▸ hz')
      omega
  · intro i j hij hjn hex
    obtain ⟨hc, hs, hm⟩ := hpair i j hij hjn
    obtain ⟨hw, hz⟩ := hs hex
    by_cases hijk : i ≠ k ∧ j ≠ k
    · have hlvl : ∀ x, pairLevel k (pairList g.n) i j x ↔ x < k + 1 :=
        pairLevel_mem (mem_pairList.mpr ⟨by omega, hjn⟩) hijk.1 hijk.2
      exact ⟨hw, fun z hz' => (hlvl z).mp (hz z hz')⟩
    · have hik : i = k ∨ j = k := by tauto
      have hlvl : ∀ x, pairLevel k (pairList g.n) i j x ↔ x < k :=
        pairLevel_endpoint hik
      refine ⟨hw, fun z hz' => ?_⟩
      have := (hlvl z).mp (hz z hz')
      omega
  · rintro i j hij hjn hex L w ⟨hw, hz⟩
    obtain ⟨hc, hs, hm⟩ := hpair i j hij hjn
    by_cases hijk : i ≠ k ∧ j ≠ k
    · have hlvl : ∀ x, pairLevel k (pairList g.n) i j x ↔ x < k + 1 :=
        pairLevel_mem (mem_pairList.mpr ⟨by omega, hjn⟩) hijk.1 hijk.2
      exact hm hex L w ⟨hw, fun z hz' => (hlvl z).mpr (hz z hz')⟩
    · have hik : i = k ∨ j = k := by tauto
      have hlvl : ∀ x, pairLevel k (pairList g.n) i j x ↔ x < k :=
        pairLevel_endpoint hik
      obtain ⟨L', w', hw', hle, hnd, hsub, hiL, hjL⟩ :=
        walk_decycle L.length (le_refl _) hw
      have hmin : ((fwPass g.n k m).slotD i j).len ≤ w' := by
        refine hm hex L' w' ⟨hw', fun z hz' => (hlvl z).mpr ?_⟩
        have h1 : z < k + 1 := hz z (hsub z hz')
        have h2 : z ≠ k := by
          rcases hik with hik | hik
          · exact fun hc' => hiL (by rw [← hik] at hc'; exact hc' ▸ hz')
          · exact fun hc' => hjL (by rw [← hik] at hc'; exact hc' ▸ hz')
        omega
      omega

/-- The matrix returned by `floyd_warshall` satisfies the invariant for
the full set of intermediate nodes. -/
theorem floyd_warshall_inv (g : Graph) (W : Nat) (hdir : g.directed = false)
    (hwf : g.Wf) (hnd : g.NodupPairs) (hW : ∀ e ∈ g.edges, e.w ≤ W)
    (hM : 2 * ((g.n + 1) * W) ≤ usizeMax) {m : PathMatrix Nat}
    (hm : floyd_warshall g = some m) :
    Inv g (fun x => x < g.n) m := by
  have hfw : floyd_warshall g =
      some ((List.range g.n).foldl (fun m k => fwPass g.n k m)
        (seedMatrix g)) := by
    unfold floyd_warshall
    rw [hdir]
    rfl
  rw [hfw] at hm
  have hm' : m = (List.range g.n).foldl (fun m k => fwPass g.n k m)
      (seedMatrix g) := (Option.some_injective _ hm).symm
  subst hm'
  have hbase : Inv g (fun x => x < 0) (seedMatrix g) :=
    inv_congr (fun x => ⟨False.elim, fun h => absurd h (Nat.not_lt_zero x)⟩)
      (seed_inv g hwf hnd)
  have hfold : ∀ (l pre : List Nat) (s : PathMatrix Nat),
      List.range g.n = pre ++ l → Inv g (fun x => x < pre.length) s →
      Inv g (fun x => x < (List.range g.n).length)
        (l.foldl (fun m k => fwPass g.n k m) s) := by
    intro l pre s hsplit hInv
    have := foldl_split_invariant (List.range g.n)
      (fun m k => fwPass g.n k m)
      (fun pre s => Inv g (fun x => x < pre.length) s)
      (fun pre a rest s hfull hP => by
        obtain ⟨ha, hpn⟩ := range_decomp hfull
        have hstep := fwPass_inv g W a hwf hW hM (by omega) s
          (inv_congr (fun x => by omega) hP)
        have hlen' : (pre ++ [a]).length = pre.length + 1 := by simp
        exact inv_congr (fun x => by rw [hlen']; omega) hstep)
      l pre s hsplit hInv
    exact this
  have hfinal := hfold (List.range g.n) [] (seedMatrix g) rfl hbase
  exact inv_congr (fun x => by rw [List.length_range]) hfinal

/-! ### Decidability of the graph-side predicates -/

instance (e : Edge) (i j : Nat) : Decidable (joins e i j) := by
  unfold joins
  infer_instance

instance (e₁ e₂ : Edge) : Decidable (sameUPair e₁ e₂) := by
  unfold sameUPair
  infer_instance

instance (g : Graph) (a b w : Nat) : Decidable (HasEdge g a b w) := by
  unfold HasEdge
  infer_instance

instance (g : Graph) : Decidable g.Wf := by
  unfold Graph.Wf
  infer_instance

instance (g : Graph) : Decidable g.NodupPairs := by
  unfold Graph.NodupPairs
  infer_instance

/-! ### Final query-level facts -/

/-- At the full intermediate set, constrained walks are exactly walks. -/
theorem walkS_full_iff {g : Graph} (hwf : g.Wf) {x y : Nat} {L : List Nat}
    {w : Nat} : WalkS g (fun z => z < g.n) x y L w ↔ Walk g x y L w := by
  constructor
  · exact fun h => h.1
  · intro h
    exact ⟨h, (walk_lt hwf h).2.2⟩

/-- The final matrix, read in any direction: occupancy is reachability,
and the stored length with its (possibly reversed) vector is a shortest
walk. -/
theorem inv_final_facts (g : Graph) (hwf : g.Wf) {m : PathMatrix Nat}
    (hInv : Inv g (fun x => x < g.n) m) {x y : Nat} (hxy : x ≠ y)
    (hx : x < g.n) (hy : y < g.n) :
    ((m.slotD x y).pexists = true ↔ Reachable g x y) ∧
    ((m.slotD x y).pexists = true →
      Walk g x y (if x ≤ y then (m.slotD x y).v else (m.slotD x y).v.reverse)
        (m.slotD x y).len ∧
      ∀ L w, Walk g x y L w → (m.slotD x y).len ≤ w) := by
  obtain ⟨hn, hlen, hc, hs, hm⟩ := hInv
  rcases Nat.lt_or_ge x y with hlt | hge
  · refine ⟨⟨?_, ?_⟩, ?_⟩
    · intro hex
      obtain ⟨hw, -⟩ := hs hlt hy hex
      exact ⟨_, _, hw⟩
    · rintro ⟨L, w, hw⟩
      exact hc hlt hy ⟨L, w, (walkS_full_iff hwf).mpr hw⟩
    · intro hex
      obtain ⟨hw, -⟩ := hs hlt hy hex
      rw [if_pos (by omega : x ≤ y)]
      exact ⟨hw, fun L w hw' =>
        hm hlt hy hex L w ((walkS_full_iff hwf).mpr hw')⟩
  · have hlt : y < x := by omega
    have hsymm : m.slotD x y = m.slotD y x := slotD_symm m x y
    rw [hsymm]
    refine ⟨⟨?_, ?_⟩, ?_⟩
    · intro hex
      obtain ⟨hw, -⟩ := hs hlt hx hex
      exact ⟨_, _, walk_reverse hw⟩
    · rintro ⟨L, w, hw⟩
      exact hc hlt hx ⟨L.reverse, w, (walkS_full_iff hwf).mpr (walk_reverse hw)⟩
    · intro hex
      obtain ⟨hw, -⟩ := hs hlt hx hex
      rw [if_neg (by omega : ¬ x ≤ y)]
      refine ⟨walk_reverse hw, fun L w hw' => ?_⟩
      exact hm hlt hx hex L.reverse w
        ((walkS_full_iff hwf).mpr (walk_reverse hw'))

/-- Bridging the `Option`-returning query surface to the slot view, for
in-range indices. -/
theorem query_eq_slotD {T : Type} (m : PathMatrix T) {i j n : Nat}
    (hlen : m.m.length = 1 + n * (n - 1) / 2) (hi : i < n) (hj : j < n) :
    m.getSlot? i j = some (m.slotD i j) ∧
    m.does_path_exist i j = some ((m.slotD i j).pexists) ∧
    m.get_path_len i j =
      (if (m.slotD i j).pexists then some ((m.slotD i j).len) else none) := by
  have hin : m.idx i j < m.m.length := by
    rw [hlen]
    exact idx_lt_size m hi hj
  have hslot := getSlot?_eq_slotD m hin
  refine ⟨hslot, ?_, ?_⟩
  · unfold PathMatrix.does_path_exist
    rw [hslot]
    rfl
  · unfold PathMatrix.get_path_len
    rw [hslot]
    rfl

/-! ### Claim C1 -/

/-- Every walk weighs at least `c` when every edge weighs at least `c`. -/
theorem walk_min_edge {g : Graph} {c a b w : Nat} {L : List Nat}
    (hw : Walk g a b L w) (hc : ∀ e ∈ g.edges, c ≤ e.w) : c ≤ w := by
  induction hw with
  | single h =>
    obtain ⟨e, he, -, hew⟩ := h
    exact hew ▸ hc e he
  | cons h _ ih =>
    omega

/-- A two-edge graph whose shortest 0-2 distance is `2 ^ 64`, beyond
`usize::MAX`: the saturating addition in the relaxation caps the stored
length at `2 ^ 64 - 1`. -/
def satGraph : Graph := ⟨3, [⟨0, 1, 2 ^ 63⟩, ⟨1, 2, 2 ^ 63⟩], false⟩

theorem satGraph_lower : ∀ (L : List Nat) (w : Nat),
    Walk satGraph 0 2 L w → 2 ^ 64 ≤ w := by
  have hmin : ∀ e ∈ satGraph.edges, 2 ^ 63 ≤ e.w := by decide
  have hpow : (2 : Nat) ^ 63 + 2 ^ 63 = 2 ^ 64 := by norm_num
  have hnoedge : ∀ w : Nat, ¬ HasEdge satGraph 0 2 w := by
    intro w h
    obtain ⟨e, he, hj, -⟩ := h
    have he' : e = (⟨0, 1, 2 ^ 63⟩ : Edge) ∨ e = (⟨1, 2, 2 ^ 63⟩ : Edge) := by
      simpa [satGraph] using he
    rcases he' with rfl | rfl <;> simp at hj
  intro L w hw
  cases hw with
  | single h => exact absurd h (hnoedge _)
  | cons h hw' =>
    obtain ⟨e, he, hj, hew⟩ := h
    have h2 := walk_min_edge hw' hmin
    have he' : e = (⟨0, 1, 2 ^ 63⟩ : Edge) ∨ e = (⟨1, 2, 2 ^ 63⟩ : Edge) := by
      simpa [satGraph] using he
    rcases he' with rfl | rfl
    · simp only [Edge.mk.injEq] at hew ⊢
      omega
    · exfalso
      rcases hj with ⟨h1, -⟩ | ⟨-, h2'⟩
      · exact absurd h1 (by decide)
      · exact absurd h2' (by decide)

/-- Claim C1, counterexample: on `satGraph` the node pair `(0, 2)` is
reachable and the matrix stores length `2 ^ 64 - 1`, but every walk
between them weighs at least `2 ^ 64`, so the stored value is not the
length of a shortest path.  This refutes the claim as stated for
arbitrary non-negative integer weights. -/
theorem claim_C1_counterexample :
    ¬ (∀ d : Nat,
        (floyd_warshall satGraph).bind (fun m => m.get_path_len 0 2) = some d →
        shortestLen satGraph 0 2 d) := by
  intro h
  have hcomp : (floyd_warshall satGraph).bind (fun m => m.get_path_len 0 2) =
      some (2 ^ 64 - 1) := by decide
  obtain ⟨⟨L, hL⟩, -⟩ := h (2 ^ 64 - 1) hcomp
  have := satGraph_lower L _ hL
  have hpow : (1 : Nat) ≤ 2 ^ 64 := Nat.one_le_two_pow
  omega

/-- Claim C1, amended: for a well-formed simple undirected graph whose
edge weights are bounded by some `W` with `2·(n+1)·W ≤ usize::MAX` (so
that no saturating addition ever truncates), `does_path_exist(i, j)`
reports reachability for every pair of distinct nodes, and
`get_path_len(i, j)` is then the length of a shortest path between them. -/
theorem claim_C1 (g : Graph) (W : Nat) (hdir : g.directed = false)
    (hwf : g.Wf) (hnd : g.NodupPairs) (hW : ∀ e ∈ g.edges, e.w ≤ W)
    (hM : 2 * ((g.n + 1) * W) ≤ usizeMax) (m : PathMatrix Nat)
    (hm : floyd_warshall g = some m) (i j : Nat)
    (hi : i < g.n) (hj : j < g.n) (hij : i ≠ j) :
    (m.does_path_exist i j = some true ↔ Reachable g i j) ∧
    (Reachable g i j →
      ∃ d, m.get_path_len i j = some d ∧ shortestLen g i j d) := by
  have hInv := floyd_warshall_inv g W hdir hwf hnd hW hM hm
  obtain ⟨hiff, hfacts⟩ := inv_final_facts g hwf hInv hij hi hj
  obtain ⟨-, hdpe, hgpl⟩ := query_eq_slotD m hInv.hlen hi hj
  constructor
  · rw [hdpe]
    constructor
    · intro hx
      exact hiff.mp (by simpa using hx)
    · intro hx
      rw [hiff.mpr hx]
  · intro hreach
    have hex : (m.slotD i j).pexists = true := hiff.mpr hreach
    obtain ⟨hwalk, hmin⟩ := hfacts hex
    refine ⟨(m.slotD i j).len, by rw [hgpl, if_pos hex], ?_, ?_⟩
    · exact ⟨_, hwalk⟩
    · exact hmin

/-- Scenario graph: path `0 - 1 - 2` with weights 1, 1 and a heavier
direct edge `(0, 2)` of weight 3. -/
def g0 : Graph := ⟨3, [⟨0, 1, 1⟩, ⟨1, 2, 1⟩, ⟨0, 2, 3⟩], false⟩

/-- The matrix computed by the engine on `g0`. -/
def m0 : PathMatrix Nat := (floyd_warshall g0).getD (PathMatrix.new Nat 0)

/-- Witness for the amended claim C1 at the concrete scenario graph. -/
theorem claim_C1_witness :
    (g0.directed = false ∧ g0.Wf ∧ g0.NodupPairs ∧
      (∀ e ∈ g0.edges, e.w ≤ 3) ∧ 2 * ((g0.n + 1) * 3) ≤ usizeMax ∧
      floyd_warshall g0 = some m0 ∧ 0 < g0.n ∧ 2 < g0.n ∧ (0 : Nat) ≠ 2) ∧
    ((m0.does_path_exist 0 2 = some true ↔ Reachable g0 0 2) ∧
      (Reachable g0 0 2 →
        ∃ d, m0.get_path_len 0 2 = some d ∧ shortestLen g0 0 2 d)) :=
  ⟨⟨rfl, by decide, by decide, by decide, by decide, rfl, by decide,
      by decide, by decide⟩,
    claim_C1 g0 3 rfl (by decide) (by decide) (by decide) (by decide) m0 rfl
      0 2 (by decide) (by decide) (by decide)⟩

/-! ### Claims C2, C9, C10 -/

/-- Claim C2, counterexample: `PathMatrix::new(2)` allocates 2 slots,
not `2·(2+1)/2 = 3` as the claim states. -/
theorem claim_C2_counterexample :
    ¬ ((PathMatrix.new Nat 2).m.length = 2 * (2 + 1) / 2) := by decide

/-- Shared index-range fact: on the strict upper triangle below `n`, the
packed index lies in `{1, …, n (n - 1) / 2}`. -/
theorem idx_range_off_diag {T : Type} (mx : PathMatrix T) {i j n : Nat}
    (hij : i < j) (hjn : j < n) :
    1 ≤ mx.idx i j ∧ mx.idx i j ≤ n * (n - 1) / 2 := by
  rw [idx_lt_of_lt mx hij, ← tri_pred_eq]
  have h1 := idxAux_pos hij
  have h2 := idxAux_le_tri hij
  have h3 : tri j ≤ tri (n - 1) := tri_mono (by omega)
  omega

/-- Shared injectivity fact for the packed index on canonical pairs. -/
theorem idx_inj_off_diag {T : Type} (mx : PathMatrix T) {i j i' j' : Nat}
    (hij : i < j) (hij' : i' < j') (h : mx.idx i j = mx.idx i' j') :
    i = i' ∧ j = j' := by
  rw [idx_lt_of_lt mx hij, idx_lt_of_lt mx hij'] at h
  exact idxAux_inj hij hij' h

/-- Shared surjectivity fact: every target in `{1, …, n (n - 1) / 2}` is
the packed index of some canonical pair below `n`. -/
theorem idx_surj_off_diag (T : Type) (n : Nat) :
    ∀ t, 1 ≤ t → t ≤ n * (n - 1) / 2 →
      ∃ i j, i < j ∧ j < n ∧ ∀ mx : PathMatrix T, mx.idx i j = t := by
  intro t h1 h2
  obtain ⟨i, j, hij, hjn, he⟩ := idxAux_surj n t h1 (by rw [tri_pred_eq]; omega)
  exact ⟨i, j, hij, hjn, fun mx => by rw [idx_lt_of_lt mx hij]; exact he⟩

/-- Claim C2, amended: `new(n)` allocates `1 + n·(n-1)/2`
default-initialized slots (not `n·(n+1)/2`); `idx` is symmetric, maps
every diagonal pair to the shared slot `0`, and maps the off-diagonal
unordered pairs below `n` bijectively onto `{1, …, n·(n-1)/2}`. -/
theorem claim_C2 (T : Type) (n : Nat) (hn : 1 ≤ n) :
    (PathMatrix.new T n).m.length = 1 + n * (n - 1) / 2 ∧
    (∀ mx : PathMatrix T, ∀ i, mx.idx i i = 0) ∧
    (∀ mx : PathMatrix T, ∀ i j, mx.idx i j = mx.idx j i) ∧
    (∀ mx : PathMatrix T, ∀ i j i' j', i < j → j < n → i' < j' → j' < n →
      mx.idx i j = mx.idx i' j' → i = i' ∧ j = j') ∧
    (∀ mx : PathMatrix T, ∀ i j, i < j → j < n →
      1 ≤ mx.idx i j ∧ mx.idx i j ≤ n * (n - 1) / 2) ∧
    (∀ t, 1 ≤ t → t ≤ n * (n - 1) / 2 →
      ∃ i j, i < j ∧ j < n ∧ ∀ mx : PathMatrix T, mx.idx i j = t) :=
  ⟨new_length T n,
    fun mx i => idx_diag mx i,
    fun mx i j => idx_symm mx i j,
    fun mx _ _ _ _ hij hjn hij' hjn' h => idx_inj_off_diag mx hij hij' h,
    fun mx _ _ hij hjn => idx_range_off_diag mx hij hjn,
    idx_surj_off_diag T n⟩

/-- Witness for the amended claim C2 at `n = 4`. -/
theorem claim_C2_witness :
    1 ≤ 4 ∧
    ((PathMatrix.new Nat 4).m.length = 1 + 4 * (4 - 1) / 2 ∧
      (∀ mx : PathMatrix Nat, ∀ i, mx.idx i i = 0) ∧
      (∀ mx : PathMatrix Nat, ∀ i j, mx.idx i j = mx.idx j i) ∧
      (∀ mx : PathMatrix Nat, ∀ i j i' j', i < j → j < 4 → i' < j' → j' < 4 →
        mx.idx i j = mx.idx i' j' → i = i' ∧ j = j') ∧
      (∀ mx : PathMatrix Nat, ∀ i j, i < j → j < 4 →
        1 ≤ mx.idx i j ∧ mx.idx i j ≤ 4 * (4 - 1) / 2) ∧
      (∀ t, 1 ≤ t → t ≤ 4 * (4 - 1) / 2 →
        ∃ i j, i < j ∧ j < 4 ∧ ∀ mx : PathMatrix Nat, mx.idx i j = t)) :=
  ⟨by decide, claim_C2 Nat 4 (by decide)⟩

/-- Claim C9, confirmed: the matrix has exactly `1 + n·(n-1)/2` slots,
every packed index of a pair below `n` is below that count, the
off-diagonal index mapping is injective with image `{1, …, n·(n-1)/2}`,
and therefore every accessor call with both indices below `n` stays in
bounds. -/
theorem claim_C9 (T : Type) (n : Nat) (hn : 1 ≤ n) :
    (PathMatrix.new T n).m.length = 1 + n * (n - 1) / 2 ∧
    (∀ mx : PathMatrix T, ∀ i j, i < n → j < n →
      mx.idx i j < 1 + n * (n - 1) / 2) ∧
    (∀ mx : PathMatrix T, ∀ i j i' j', i < j → j < n → i' < j' → j' < n →
      mx.idx i j = mx.idx i' j' → i = i' ∧ j = j') ∧
    (∀ mx : PathMatrix T, ∀ i j, i < j → j < n →
      1 ≤ mx.idx i j ∧ mx.idx i j ≤ n * (n - 1) / 2) ∧
    (∀ t, 1 ≤ t → t ≤ n * (n - 1) / 2 →
      ∃ i j, i < j ∧ j < n ∧ ∀ mx : PathMatrix T, mx.idx i j = t) ∧
    (∀ m : PathMatrix T, m.m.length = 1 + n * (n - 1) / 2 →
      ∀ i j, i < n → j < n →
        m.idx i j < m.m.length ∧
        (m.getSlot? i j).isSome = true ∧
        (m.get_path i j).isSome = true ∧
        (m.does_path_exist i j).isSome = true ∧
        ∀ v, (m.set_path_len i j v).getSlot? i j =
          some ((m.slotD i j).set_len v)) := by
  refine ⟨new_length T n, ?_, ?_, ?_, ?_, ?_⟩
  · intro mx i j hi hj
    exact idx_lt_size mx hi hj
  · intro mx _ _ _ _ hij hjn hij' hjn' h
    exact idx_inj_off_diag mx hij hij' h
  · intro mx _ _ hij hjn
    exact idx_range_off_diag mx hij hjn
  · exact idx_surj_off_diag T n
  · intro m hlen i j hi hj
    have hin : m.idx i j < m.m.length := by
      rw [hlen]
      exact idx_lt_size m hi hj
    have hslot := getSlot?_eq_slotD m hin
    refine ⟨hin, by rw [hslot]; rfl, ?_, ?_, ?_⟩
    · show (m.getSlot? i j).isSome = true
      rw [hslot]
      rfl
    · unfold PathMatrix.does_path_exist
      rw [hslot]
      rfl
    · intro v
      show (m.modifySlot i j (fun p => p.set_len v)).getSlot? i j =
        some ((m.slotD i j).set_len v)
      have h1 : (m.modifySlot i j (fun p => p.set_len v)).slotD i j =
          (m.slotD i j).set_len v :=
        slotD_modifySlot_eq m _ rfl hin
      have h2 : (m.modifySlot i j (fun p => p.set_len v)).idx i j <
          (m.modifySlot i j (fun p => p.set_len v)).m.length := by
        rw [length_modifySlot]
        exact hin
      rw [getSlot?_eq_slotD _ h2, h1]

/-- Witness for claim C9 at `n = 4`. -/
theorem claim_C9_witness :
    1 ≤ 4 ∧
    ((PathMatrix.new Nat 4).m.length = 1 + 4 * (4 - 1) / 2 ∧
      (∀ mx : PathMatrix Nat, ∀ i j, i < 4 → j < 4 →
        mx.idx i j < 1 + 4 * (4 - 1) / 2) ∧
      (∀ mx : PathMatrix Nat, ∀ i j i' j', i < j → j < 4 → i' < j' → j' < 4 →
        mx.idx i j = mx.idx i' j' → i = i' ∧ j = j') ∧
      (∀ mx : PathMatrix Nat, ∀ i j, i < j → j < 4 →
        1 ≤ mx.idx i j ∧ mx.idx i j ≤ 4 * (4 - 1) / 2) ∧
      (∀ t, 1 ≤ t → t ≤ 4 * (4 - 1) / 2 →
        ∃ i j, i < j ∧ j < 4 ∧ ∀ mx : PathMatrix Nat, mx.idx i j = t) ∧
      (∀ m : PathMatrix Nat, m.m.length = 1 + 4 * (4 - 1) / 2 →
        ∀ i j, i < 4 → j < 4 →
          m.idx i j < m.m.length ∧
          (m.getSlot? i j).isSome = true ∧
          (m.get_path i j).isSome = true ∧
          (m.does_path_exist i j).isSome = true ∧
          ∀ v, (m.set_path_len i j v).getSlot? i j =
            some ((m.slotD i j).set_len v))) :=
  ⟨by decide, claim_C9 Nat 4 (by decide)⟩

/-- Claim C10, confirmed: `idx(i, i) = 0` for every `i`, so all diagonal
pairs share slot 0: diagonal reads agree for all nodes, and one diagonal
write (for example a seeded self-loop) is observed on the diagonal of
every node. -/
theorem claim_C10 (T : Type) (mx : PathMatrix T) (i j v w : Nat)
    (hpos : 0 < mx.m.length) :
    mx.idx i i = 0 ∧
    mx.get_path_len i i = mx.get_path_len j j ∧
    mx.does_path_exist i i = mx.does_path_exist j j ∧
    (mx.set_path_len v v w).get_path_len j j = some w := by
  have hdiag : ∀ a : Nat, mx.getSlot? a a = mx.m[0]? := by
    intro a
    unfold PathMatrix.getSlot?
    rw [idx_diag]
  refine ⟨idx_diag mx i, ?_, ?_, ?_⟩
  · unfold PathMatrix.get_path_len
    rw [hdiag i, hdiag j]
  · unfold PathMatrix.does_path_exist
    rw [hdiag i, hdiag j]
  · have hinj : mx.idx j j < mx.m.length := by
      rw [idx_diag]
      exact hpos
    show (mx.modifySlot v v (fun p => p.set_len w)).get_path_len j j = some w
    have h1 : (mx.modifySlot v v (fun p => p.set_len w)).slotD j j =
        (mx.slotD j j).set_len w :=
      slotD_modifySlot_eq mx _ (by rw [idx_diag, idx_diag]) hinj
    have h2 : (mx.modifySlot v v (fun p => p.set_len w)).idx j j <
        (mx.modifySlot v v (fun p => p.set_len w)).m.length := by
      rw [length_modifySlot]
      exact hinj
    unfold PathMatrix.get_path_len
    rw [getSlot?_eq_slotD _ h2, h1]
    rfl

/-- Witness for claim C10 on a concrete three-slot matrix. -/
theorem claim_C10_witness :
    0 < (PathMatrix.new Nat 3).m.length ∧
    ((PathMatrix.new Nat 3).idx 1 1 = 0 ∧
      (PathMatrix.new Nat 3).get_path_len 1 1 =
        (PathMatrix.new Nat 3).get_path_len 2 2 ∧
      (PathMatrix.new Nat 3).does_path_exist 1 1 =
        (PathMatrix.new Nat 3).does_path_exist 2 2 ∧
      ((PathMatrix.new Nat 3).set_path_len 0 0 7).get_path_len 2 2 = some 7) :=
  ⟨by decide, claim_C10 Nat (PathMatrix.new Nat 3) 1 2 0 7 (by decide)⟩

/-! ### Claims C6, C7, C8 -/

/-- Claim C6, confirmed: the packed index, and hence every query, is
symmetric in its two arguments, and a `set_path_len(i, j, v)` is observed
when reading the reversed pair `(j, i)`. -/
theorem claim_C6 (T : Type) (m : PathMatrix T) (i j v : Nat)
    (hlen : m.m.length = 1 + m.n * (m.n - 1) / 2)
    (hi : i < m.n) (hj : j < m.n) :
    m.idx i j = m.idx j i ∧
    m.get_path_len i j = m.get_path_len j i ∧
    m.does_path_exist i j = m.does_path_exist j i ∧
    (m.set_path_len i j v).get_path_len j i = some v := by
  have hgs : m.getSlot? i j = m.getSlot? j i := by
    unfold PathMatrix.getSlot?
    rw [idx_symm]
  refine ⟨idx_symm m i j, ?_, ?_, ?_⟩
  · unfold PathMatrix.get_path_len
    rw [hgs]
  · unfold PathMatrix.does_path_exist
    rw [hgs]
  · have hin : m.idx i j < m.m.length := by
      rw [hlen]
      exact idx_lt_size m hi hj
    have hin' : m.idx j i < m.m.length := by
      rw [idx_symm m j i]
      exact hin
    show (m.modifySlot i j (fun p => p.set_len v)).get_path_len j i = some v
    have h1 : (m.modifySlot i j (fun p => p.set_len v)).slotD j i =
        (m.slotD j i).set_len v :=
      slotD_modifySlot_eq m _ (idx_symm m i j) hin'
    have h2 : (m.modifySlot i j (fun p => p.set_len v)).idx j i <
        (m.modifySlot i j (fun p => p.set_len v)).m.length := by
      rw [length_modifySlot]
      exact hin'
    unfold PathMatrix.get_path_len
    rw [getSlot?_eq_slotD _ h2, h1]
    rfl

/-- Witness for claim C6 on a concrete matrix and pair. -/
theorem claim_C6_witness :
    ((PathMatrix.new Nat 3).m.length =
        1 + (PathMatrix.new Nat 3).n * ((PathMatrix.new Nat 3).n - 1) / 2 ∧
      0 < (PathMatrix.new Nat 3).n ∧ 2 < (PathMatrix.new Nat 3).n) ∧
    ((PathMatrix.new Nat 3).idx 0 2 = (PathMatrix.new Nat 3).idx 2 0 ∧
      (PathMatrix.new Nat 3).get_path_len 0 2 =
        (PathMatrix.new Nat 3).get_path_len 2 0 ∧
      (PathMatrix.new Nat 3).does_path_exist 0 2 =
        (PathMatrix.new Nat 3).does_path_exist 2 0 ∧
      ((PathMatrix.new Nat 3).set_path_len 0 2 9).get_path_len 2 0 = some 9) :=
  ⟨⟨by decide, by decide, by decide⟩,
    claim_C6 Nat (PathMatrix.new Nat 3) 0 2 9 (by decide) (by decide)
      (by decide)⟩

/-- Claim C7, confirmed: for in-range indices, `get_path_len` returns a
value exactly when `does_path_exist` is `true` (and then it is the
stored length); when `does_path_exist` is `false` the `Path::len`
assertion fails, modelled by `none`. -/
theorem claim_C7 (T : Type) (m : PathMatrix T) (i j : Nat)
    (hlen : m.m.length = 1 + m.n * (m.n - 1) / 2)
    (hi : i < m.n) (hj : j < m.n) :
    ((m.get_path_len i j).isSome = true ↔ m.does_path_exist i j = some true) ∧
    (m.does_path_exist i j = some false → m.get_path_len i j = none) ∧
    (m.does_path_exist i j = some true →
      m.get_path_len i j = some ((m.slotD i j).len)) := by
  obtain ⟨hslot, hdpe, hgpl⟩ := query_eq_slotD m hlen hi hj
  rw [hdpe, hgpl]
  cases hx : (m.slotD i j).pexists with
  | false => simp [hx]
  | true => simp [hx]

/-- Witness for claim C7 on a fresh matrix (no paths exist yet). -/
theorem claim_C7_witness :
    ((PathMatrix.new Nat 3).m.length =
        1 + (PathMatrix.new Nat 3).n * ((PathMatrix.new Nat 3).n - 1) / 2 ∧
      0 < (PathMatrix.new Nat 3).n ∧ 1 < (PathMatrix.new Nat 3).n) ∧
    ((((PathMatrix.new Nat 3).get_path_len 0 1).isSome = true ↔
        (PathMatrix.new Nat 3).does_path_exist 0 1 = some true) ∧
      ((PathMatrix.new Nat 3).does_path_exist 0 1 = some false →
        (PathMatrix.new Nat 3).get_path_len 0 1 = none) ∧
      ((PathMatrix.new Nat 3).does_path_exist 0 1 = some true →
        (PathMatrix.new Nat 3).get_path_len 0 1 =
          some (((PathMatrix.new Nat 3).slotD 0 1).len))) :=
  ⟨⟨by decide, by decide, by decide⟩,
    claim_C7 Nat (PathMatrix.new Nat 3) 0 1 (by decide) (by decide)
      (by decide)⟩

/-- Claim C8, confirmed: `floyd_warshall` fails its precondition
assertion (producing no result) exactly on directed inputs. -/
theorem claim_C8 : ∀ g : Graph, floyd_warshall g = none ↔ g.directed = true := by
  intro g
  unfold floyd_warshall
  by_cases h : g.directed = true
  · rw [if_pos h]
    simp [h]
  · rw [if_neg h]
    simp [h]

/-! ### Claim C5 -/

theorem foldl_pres_mem {σ α : Type _} (f : σ → α → σ) (Q : σ → Prop) :
    ∀ (l : List α), (∀ s a, a ∈ l → Q s → Q (f s a)) →
      ∀ s, Q s → Q (l.foldl f s) := by
  intro l
  induction l with
  | nil => intro _ s hQ; exact hQ
  | cons a l ih =>
    intro h s hQ
    exact ih (fun s' a' ha' hQ' => h s' a' (by simp [ha']) hQ')
      (f s a) (h s a (by simp) hQ)

/-- The shared diagonal slot, read directly. -/
theorem slot0_modifySlot (mx : PathMatrix Nat) (i j : Nat)
    (f : Path Nat → Path Nat) (h : mx.idx i j ≠ 0) :
    (mx.modifySlot i j f).m[(0 : Nat)]? = mx.m[(0 : Nat)]? := by
  show (mx.m.modify f (mx.idx i j))[(0 : Nat)]? = _
  rw [List.getElem?_modify]
  cases hx : mx.m[(0 : Nat)]? with
  | none => rfl
  | some s => simp [h]

theorem idx_ne_zero_of_ne {T : Type} (mx : PathMatrix T) {x y : Nat}
    (h : x ≠ y) : mx.idx x y ≠ 0 := by
  rcases Nat.lt_trichotomy x y with hlt | heq | hgt
  · exact idx_ne_zero mx hlt
  · exact absurd heq h
  · rw [idx_symm]
    exact idx_ne_zero mx hgt

/-- The diagonal-slot state is preserved by every relaxation step. -/
theorem fwStep_slot0 (k n1 n2 : Nat) (m : PathMatrix Nat)
    (hQ : m.m[(0 : Nat)]? = some (⟨[], 0, true⟩ : Path Nat)) :
    (fwStep k n1 n2 m).m[(0 : Nat)]? = some (⟨[], 0, true⟩ : Path Nat) := by
  by_cases hskip : n1 = n2 ∨ n1 > n2 ∨ n1 = k ∨ n2 = k
  · rw [fwStep_skip m hskip]
    exact hQ
  · push_neg at hskip
    obtain ⟨hne, hngt, hak, hbk⟩ := hskip
    have hab : n1 < n2 := by omega
    have hupd : ∀ v2v, (fwUpdate k n1 n2 v2v m).m[(0 : Nat)]? =
        some (⟨[], 0, true⟩ : Path Nat) := by
      intro v2v
      have hne0 : ∀ mx : PathMatrix Nat, mx.idx n1 n2 ≠ 0 :=
        fun mx => idx_ne_zero mx hab
      unfold fwUpdate
      simp only [PathMatrix.set_path_vector, PathMatrix.set_path_len]
      rw [slot0_modifySlot _ _ _ _ (hne0 _), slot0_modifySlot _ _ _ _ (hne0 _)]
      exact hQ
    rw [fwStep_active m hab hak hbk]
    split
    · split
      · split
        · exact hupd _
        · exact hQ
      · exact hupd _
    · exact hQ

/-- Claim C5, counterexample: on a graph with the self-loop edge
`(0, 0, 5)` the seeding loop overwrites the shared diagonal slot, so
`get_path_len(0, 0)` is 5, not 0. -/
def loopG : Graph := ⟨1, [⟨0, 0, 5⟩], false⟩

theorem claim_C5_counterexample :
    (floyd_warshall loopG).bind (fun m => m.get_path_len 0 0) ≠ some 0 := by
  decide

/-- Claim C5, amended: after `floyd_warshall` on an undirected graph
without self-loop edges, `get_path_len(v, v) = 0` for every node `v`
(a self-loop edge `(v, v, w)` would overwrite the shared diagonal
slot). -/
theorem claim_C5 (g : Graph) (hdir : g.directed = false)
    (hself : ∀ e ∈ g.edges, e.src ≠ e.tgt) (m : PathMatrix Nat)
    (hm : floyd_warshall g = some m) (v : Nat) (hv : v < g.n) :
    m.get_path_len v v = some 0 := by
  have hfw : floyd_warshall g =
      some ((List.range g.n).foldl (fun m k => fwPass g.n k m)
        (seedMatrix g)) := by
    unfold floyd_warshall
    rw [hdir]
    rfl
  rw [hfw] at hm
  have hm' : m = (List.range g.n).foldl (fun m k => fwPass g.n k m)
      (seedMatrix g) := (Option.some_injective _ hm).symm
  subst hm'
  set Q : PathMatrix Nat → Prop :=
    fun mx => mx.m[(0 : Nat)]? = some (⟨[], 0, true⟩ : Path Nat) with hQdef
  have hinit : Q ((PathMatrix.new Nat g.n).set_path_len 0 0 0) := by
    rw [hQdef]
    show ((PathMatrix.new Nat g.n).modifySlot 0 0
      (fun p => p.set_len 0)).m[(0 : Nat)]? = _
    show ((PathMatrix.new Nat g.n).m.modify _
      ((PathMatrix.new Nat g.n).idx 0 0))[(0 : Nat)]? = _
    rw [idx_diag, List.getElem?_modify]
    have hm0 : (PathMatrix.new Nat g.n).m[(0 : Nat)]? =
        some (Path.default Nat) := by
      show (List.replicate (1 + g.n * (g.n - 1) / 2)
        (Path.default Nat))[(0 : Nat)]? = _
      rw [List.getElem?_replicate, if_pos (by omega)]
    rw [hm0]
    rfl
  have hseed : Q (seedMatrix g) := by
    unfold seedMatrix
    refine foldl_pres_mem _ Q g.edges ?_ _ hinit
    intro s e he hQ
    rw [hQdef]
    show (s.modifySlot e.src e.tgt (fun p => p.set_len e.w)).m[(0 : Nat)]? = _
    rw [slot0_modifySlot _ _ _ _ (idx_ne_zero_of_ne s (hself e he))]
    exact hQ
  have hfinal : Q ((List.range g.n).foldl (fun m k => fwPass g.n k m)
      (seedMatrix g)) := by
    refine foldl_pres_mem _ Q (List.range g.n) ?_ _ hseed
    intro s k _ hQ
    unfold fwPass
    refine foldl_pres_mem _ Q (List.range g.n) ?_ _ hQ
    intro s1 n1 _ hQ1
    refine foldl_pres_mem _ Q (List.range g.n) ?_ _ hQ1
    intro s2 n2 _ hQ2
    exact fwStep_slot0 k n1 n2 s2 hQ2
  unfold PathMatrix.get_path_len PathMatrix.getSlot?
  rw [idx_diag, hfinal]
  rfl

/-- Witness for the amended claim C5 at the concrete scenario graph. -/
theorem claim_C5_witness :
    (g0.directed = false ∧ (∀ e ∈ g0.edges, e.src ≠ e.tgt) ∧
      floyd_warshall g0 = some m0 ∧ 1 < g0.n) ∧
    m0.get_path_len 1 1 = some 0 :=
  ⟨⟨rfl, by decide, rfl, by decide⟩,
    claim_C5 g0 rfl (by decide) m0 rfl 1 (by decide)⟩

/-! ### Claim C3 -/

/-- A four-node chain `0 - 1 - 2 - 3`: the path stored for the canonical
pair `(0, 3)` walks `0 → 3`, so reading it for the query `(3, 0)`
without reversing does not give a walk. -/
def chainG : Graph := ⟨4, [⟨0, 1, 1⟩, ⟨1, 2, 1⟩, ⟨2, 3, 1⟩], false⟩

set_option maxRecDepth 20000 in
/-- Claim C3, counterexample: on the chain graph the pair `(3, 0)` has a
stored path with intermediate sequence `[1, 2]`, but the node sequence
`3, 1, 2, 0` is not a walk (there is no edge between 3 and 1): the claim
fails for queries against the canonical storage order. -/
theorem claim_C3_counterexample :
    ((floyd_warshall chainG).bind (fun m => m.does_path_exist 3 0) =
      some true) ∧
    ((floyd_warshall chainG).bind (fun m => (m.get_path 3 0).map Path.v) =
      some [1, 2]) ∧
    ¬ ∃ w, Walk chainG 3 0 [1, 2] w := by
  refine ⟨by decide, by decide, ?_⟩
  rintro ⟨w, hw⟩
  cases hw with
  | cons h hw' =>
    obtain ⟨e, he, hj, -⟩ := h
    have he' : e = (⟨0, 1, 1⟩ : Edge) ∨ e = (⟨1, 2, 1⟩ : Edge) ∨
        e = (⟨2, 3, 1⟩ : Edge) := by
      simpa [chainG] using he
    rcases he' with rfl | rfl | rfl <;> simp at hj

/-- Claim C3, amended: for a pair queried in canonical order `i < j`
(for `j < i` the stored sequence walks `j → i` and must be reversed by
the consumer), under the same no-saturation bound as C1, the stored
intermediate sequence joined to the endpoints is a walk in the graph
whose edge weights sum to `get_path_len(i, j)`. -/
theorem claim_C3 (g : Graph) (W : Nat) (hdir : g.directed = false)
    (hwf : g.Wf) (hnd : g.NodupPairs) (hW : ∀ e ∈ g.edges, e.w ≤ W)
    (hM : 2 * ((g.n + 1) * W) ≤ usizeMax) (m : PathMatrix Nat)
    (hm : floyd_warshall g = some m) (i j : Nat)
    (hij : i < j) (hj : j < g.n)
    (hex : m.does_path_exist i j = some true) :
    ∃ (p : Path Nat) (len : Nat), m.get_path i j = some p ∧
      m.get_path_len i j = some len ∧ Walk g i j p.v len := by
  have hInv := floyd_warshall_inv g W hdir hwf hnd hW hM hm
  have hi : i < g.n := by omega
  obtain ⟨hiff, hfacts⟩ := inv_final_facts g hwf hInv (by omega : i ≠ j) hi hj
  obtain ⟨hslot, hdpe, hgpl⟩ := query_eq_slotD m hInv.hlen hi hj
  have hex' : (m.slotD i j).pexists = true := by
    rw [hdpe] at hex
    simpa using hex
  obtain ⟨hwalk, -⟩ := hfacts hex'
  rw [if_pos (by omega : i ≤ j)] at hwalk
  exact ⟨m.slotD i j, (m.slotD i j).len, hslot,
    by rw [hgpl, if_pos hex'], hwalk⟩

/-- Witness for the amended claim C3 at the concrete scenario graph. -/
theorem claim_C3_witness :
    (g0.directed = false ∧ g0.Wf ∧ g0.NodupPairs ∧
      (∀ e ∈ g0.edges, e.w ≤ 3) ∧ 2 * ((g0.n + 1) * 3) ≤ usizeMax ∧
      floyd_warshall g0 = some m0 ∧ 0 < 2 ∧ 2 < g0.n ∧
      m0.does_path_exist 0 2 = some true) ∧
    (∃ (p : Path Nat) (len : Nat), m0.get_path 0 2 = some p ∧
      m0.get_path_len 0 2 = some len ∧ Walk g0 0 2 p.v len) :=
  ⟨⟨rfl, by decide, by decide, by decide, by decide, rfl, by decide,
      by decide, by decide⟩,
    claim_C3 g0 3 rfl (by decide) (by decide) (by decide) (by decide) m0 rfl
      0 2 (by decide) (by decide) (by decide)⟩

/-! ### Claim C4 -/

/-- The direction invariant of the engine: every occupied canonical slot
`(a, b)` with `a < b` stores an intermediate sequence that, read in
order, walks from `a` to `b` (with some total edge weight; the cached
length may have been truncated by the saturating addition and is not
constrained here). -/
def PathOrderInv (g : Graph) (m : PathMatrix Nat) : Prop :=
  ∀ a b : Nat, a < b → b < g.n → (m.slotD a b).pexists = true →
    ∃ w, Walk g a b (m.slotD a b).v w

/-- Partial invariant of the edge-seeding fold: the slot count is
preserved, every canonical off-diagonal slot stores an empty vector, and
an occupied one has its pair joined by some edge of the graph. -/
def SeedDirP (g : Graph) (m : PathMatrix Nat) : Prop :=
  m.m.length = 1 + g.n * (g.n - 1) / 2 ∧
  ∀ i j : Nat, i < j → j < g.n →
    (m.slotD i j).v = [] ∧
    ((m.slotD i j).pexists = true → ∃ w, HasEdge g i j w)

theorem seedDirP_step (g : Graph) {e : Edge} (he : e ∈ g.edges)
    (m : PathMatrix Nat) (h : SeedDirP g m) :
    SeedDirP g (m.set_path_len e.src e.tgt e.w) := by
  obtain ⟨hlen, hpair⟩ := h
  refine ⟨by rw [show (m.set_path_len e.src e.tgt e.w).m.length =
    m.m.length from length_modifySlot ..]; exact hlen, ?_⟩
  intro i j hij hjn
  by_cases hj : joins e i j
  · have hidx : m.idx e.src e.tgt = m.idx i j := idx_eq_of_joins m hij hj
    have hin : m.idx i j < m.m.length := by
      rw [hlen]
      exact idx_lt_size m (Nat.lt_trans hij hjn) hjn
    have hs : (m.set_path_len e.src e.tgt e.w).slotD i j =
        (m.slotD i j).set_len e.w := slotD_modifySlot_eq m _ hidx hin
    rw [hs]
    refine ⟨?_, fun _ => ⟨e.w, hasEdge_iff.mpr ⟨e, he, hj, rfl⟩⟩⟩
    show (m.slotD i j).v = []
    exact (hpair i j hij hjn).1
  · have hs : (m.set_path_len e.src e.tgt e.w).slotD i j = m.slotD i j :=
      slotD_modifySlot_ne m _ (idx_ne_of_not_joins m hij hj)
    rw [hs]
    exact hpair i j hij hjn

/-- The seeded matrix satisfies the direction invariant for every input
graph, with no well-formedness assumptions: off-diagonal slots hold
empty vectors, and an occupied one records a direct edge of its pair. -/
theorem seed_dir_inv (g : Graph) : PathOrderInv g (seedMatrix g) := by
  have hQ : SeedDirP g (seedMatrix g) := by
    show SeedDirP g (g.edges.foldl (fun m e => m.set_path_len e.src e.tgt e.w)
      ((PathMatrix.new Nat g.n).set_path_len 0 0 0))
    refine foldl_pres_mem _ (SeedDirP g) g.edges
      (fun s e he hs => seedDirP_step g he s hs) _ ?_
    obtain ⟨-, hlen0, hpair0⟩ := seedP_nil g
    refine ⟨hlen0, ?_⟩
    intro i j hij hjn
    obtain ⟨hiff, hv, -⟩ := hpair0 i j hij hjn
    refine ⟨hv, fun hex => ?_⟩
    obtain ⟨e, he, -⟩ := hiff.mp hex
    simp at he
  intro a b hab hbn hex
  obtain ⟨hlen, hpair⟩ := hQ
  obtain ⟨hv, hhe⟩ := hpair a b hab hbn
  obtain ⟨w, he⟩ := hhe hex
  exact ⟨w, by rw [hv]; exact Walk.single he⟩

/-- Claim C4, confirmed: the direction invariant — every occupied
canonical slot `(a, b)` with `a < b` stores its intermediate sequence
ordered as walked from `a` to `b` — holds for the seeded initial state
of every input graph and is preserved unconditionally by every
relaxation step, in particular also when the saturating addition
truncates the cached length, so it holds throughout the run; and the
rebuilt vector reads the `(n1, k)` sub-path forward exactly when
`n1 ≤ k` and reversed otherwise, and the `(k, n2)` sub-path forward
exactly when `k ≤ n2` and reversed otherwise. -/
theorem claim_C4 (g : Graph) (k n1 n2 : Nat) (m : PathMatrix Nat)
    (hk : k < g.n) (h1 : n1 < g.n) (h2 : n2 < g.n)
    (hlen : m.m.length = 1 + g.n * (g.n - 1) / 2)
    (hinv : PathOrderInv g m) :
    PathOrderInv g (seedMatrix g) ∧
    PathOrderInv g (fwStep k n1 n2 m) ∧
    (n1 < n2 → n1 ≠ k → n2 ≠ k → ∀ v2v,
      ((fwUpdate k n1 n2 v2v m).slotD n1 n2).v =
        (if n1 ≤ k then (m.slotD n1 k).v else (m.slotD n1 k).v.reverse) ++
          k :: (if k ≤ n2 then (m.slotD k n2).v
            else (m.slotD k n2).v.reverse)) := by
  have horient : ∀ x y : Nat, x ≠ y → x < g.n → y < g.n →
      (m.slotD x y).pexists = true →
      ∃ w, Walk g x y
        (if x ≤ y then (m.slotD x y).v else (m.slotD x y).v.reverse) w := by
    intro x y hxy hx hy hex
    rcases Nat.lt_or_ge x y with hlt | hge
    · rw [if_pos (by omega)]
      exact hinv x y hlt hy hex
    · have hlt : y < x := by omega
      rw [if_neg (by omega), slotD_symm m x y]
      rw [slotD_symm m x y] at hex
      obtain ⟨w, hw⟩ := hinv y x hlt hx hex
      exact ⟨w, walk_reverse hw⟩
  refine ⟨seed_dir_inv g, ?_, ?_⟩
  · by_cases hskip : n1 = n2 ∨ n1 > n2 ∨ n1 = k ∨ n2 = k
    · rw [fwStep_skip m hskip]
      exact hinv
    · push_neg at hskip
      obtain ⟨hne, hngt, hak, hbk⟩ := hskip
      have hab : n1 < n2 := by omega
      have hinab : m.idx n1 n2 < m.m.length := by
        rw [hlen]
        exact idx_lt_size m h1 h2
      have hidxne : ∀ a b : Nat, a < b → (a, b) ≠ (n1, n2) →
          m.idx n1 n2 ≠ m.idx a b := by
        intro a b hab' hEq hidx
        obtain ⟨hmn, hmx⟩ := idx_inj_pairs m (by omega) (by omega) hidx
        have hA : a = n1 := by omega
        have hB : b = n2 := by omega
        exact hEq (by rw [hA, hB])
      have hupd : ∀ v2v : Nat, ((m.slotD n1 k).pexists = true) →
          ((m.slotD k n2).pexists = true) →
          PathOrderInv g (fwUpdate k n1 n2 v2v m) := by
        intro v2v hx1 hx2
        intro a b hab' hbn' hex'
        by_cases hEq : (a, b) = (n1, n2)
        · have hA : a = n1 := congrArg Prod.fst hEq
          have hB : b = n2 := congrArg Prod.snd hEq
          subst hA
          subst hB
          have hslot := fwUpdate_slot_same v2v m hab hak hbk hinab
          rw [hslot]
          obtain ⟨w1, hw1⟩ := horient a k hak h1 hk hx1
          obtain ⟨w2, hw2⟩ := horient k b (by omega) hk h2 hx2
          exact ⟨w1 + w2, walk_append hw1 hw2⟩
        · rw [fwUpdate_slot_other m (hidxne a b hab' hEq)] at hex' ⊢
          exact hinv a b hab' hbn' hex'
      rw [fwStep_active m hab hak hbk]
      cases hx : ((m.slotD n1 k).pexists && (m.slotD k n2).pexists) with
      | false =>
        rw [if_neg (by simp [hx])]
        exact hinv
      | true =>
        rw [Bool.and_eq_true] at hx
        rw [if_pos (rfl : (true : Bool) = true)]
        cases hy : (m.slotD n1 n2).pexists with
        | false =>
          rw [if_neg (by simp [hy])]
          exact hupd _ hx.1 hx.2
        | true =>
          rw [if_pos (rfl : (true : Bool) = true)]
          by_cases himp : satAdd (m.slotD n1 k).len (m.slotD k n2).len <
              (m.slotD n1 n2).len
          · rw [if_pos himp]
            exact hupd _ hx.1 hx.2
          · rw [if_neg himp]
            exact hinv
  · intro hab hak hbk v2v
    have hinab : m.idx n1 n2 < m.m.length := by
      rw [hlen]
      exact idx_lt_size m h1 h2
    rw [fwUpdate_slot_same v2v m hab hak hbk hinab]

/-- The matrix state right after the seeding phase on `g0`. -/
def ms0 : PathMatrix Nat := seedMatrix g0

/-- Witness for claim C4 on the seeded scenario matrix with
`k = 1, n1 = 0, n2 = 2`. -/
theorem claim_C4_witness :
    (1 < g0.n ∧ 0 < g0.n ∧ 2 < g0.n ∧
      ms0.m.length = 1 + g0.n * (g0.n - 1) / 2 ∧ PathOrderInv g0 ms0) ∧
    (PathOrderInv g0 (seedMatrix g0) ∧
      PathOrderInv g0 (fwStep 1 0 2 ms0) ∧
      (0 < 2 → (0 : Nat) ≠ 1 → (2 : Nat) ≠ 1 → ∀ v2v,
        ((fwUpdate 1 0 2 v2v ms0).slotD 0 2).v =
          (if (0 : Nat) ≤ 1 then (ms0.slotD 0 1).v
            else (ms0.slotD 0 1).v.reverse) ++
            1 :: (if (1 : Nat) ≤ 2 then (ms0.slotD 1 2).v
              else (ms0.slotD 1 2).v.reverse))) := by
  have hinv : PathOrderInv g0 ms0 := by
    intro a b hab hbn hex
    have hcases : (a = 0 ∧ b = 1) ∨ (a = 0 ∧ b = 2) ∨ (a = 1 ∧ b = 2) := by
      have : b < 3 := hbn
      omega
    rcases hcases with ⟨rfl, rfl⟩ | ⟨rfl, rfl⟩ | ⟨rfl, rfl⟩
    · exact ⟨1, Walk.single (by decide)⟩
    · exact ⟨3, Walk.single (by decide)⟩
    · exact ⟨1, Walk.single (by decide)⟩
  exact ⟨⟨by decide, by decide, by decide, by decide, hinv⟩,
    claim_C4 g0 1 0 2 ms0 (by decide) (by decide) (by decide) (by decide)
      hinv⟩

end FloydWarshall
